import Mathlib

/-!
Verification of the Slack personal-summarizer service.

The TypeScript sources are shallowly embedded here:
* `preprocessText` (slackSummarizer, regex-based text normalizer) becomes a
  family of scanner functions over `List Char`, one per `String.replace` call,
  each mirroring the corresponding JavaScript regex with its leftmost /
  greedy-match semantics.  Each scanner is written with an explicit fuel
  argument (fuel = length of the input suffices) so that every function is
  structurally recursive and therefore evaluable by `decide` / `rfl`.
* the message pipeline (`formatMessagesForAI`, `generateOpenAISummary`,
  `generatePersonalSummary`, `getTimeRange`, `summarizeChannel`,
  `summarizeAllMyDMs`) becomes pure functions over an explicit environment
  `Env` that stands for the external Slack / OpenAI collaborators.  The
  number of completion-service invocations is returned alongside the result
  where a claim is about service calls being made or skipped.
* the HTTP handlers become either result records or event traces
  (`Ev` lists) capturing the order of the synchronous acknowledgment and of
  the external calls.
-/

namespace Summarizer

/-- JavaScript `\s` whitespace (the characters relevant to this code base). -/
def isWs (c : Char) : Bool :=
  c.toNat = 32 || c.toNat = 9 || c.toNat = 10 || c.toNat = 11 ||
  c.toNat = 12 || c.toNat = 13 || c.toNat = 160 || c.toNat = 65279

/-- Regex class `[A-Z0-9]` used by the mention patterns. -/
def isIdCh (c : Char) : Bool :=
  (65 ≤ c.toNat && c.toNat ≤ 90) || (48 ≤ c.toNat && c.toNat ≤ 57)

/-- Regex class `[a-z]`. -/
def isLowerCh (c : Char) : Bool :=
  97 ≤ c.toNat && c.toNat ≤ 122

/-- Regex class `[a-z_]` used by the emoji-shortcode pattern. -/
def isEmojiCh (c : Char) : Bool :=
  isLowerCh c || c = '_'

/-- `SlackMessage` from types.ts: `{ text, user, ts, bot_id? }`. -/
structure SlackMessage where
  text : String
  user : String
  ts : String
  bot_id : Option String := none
deriving DecidableEq

/-! ### The regex matchers

Each matcher decides whether the given suffix of the input starts with a
match of the corresponding pattern, returning what follows the match
(plus the capture for the channel pattern).  Greedy scanning of a character
class that cannot contain the mandatory following character is exactly
`takeWhile` / `dropWhile`. -/

/-- Tail of `https?:\/\/[^\s]+` after the scheme: one or more non-whitespace
characters (greedy). -/
def urlTail (r : List Char) : Option (List Char) :=
  if r.takeWhile (fun c => !isWs c) = [] then none
  else some (r.dropWhile (fun c => !isWs c))

/-- Matcher for `https?:\/\/[^\s]+` (the `s?` is tried greedily first, as the
JavaScript engine does). -/
def matchUrl : List Char → Option (List Char)
  | 'h' :: 't' :: 't' :: 'p' :: rest =>
    match rest with
    | 's' :: ':' :: '/' :: '/' :: r => urlTail r
    | ':' :: '/' :: '/' :: r => urlTail r
    | _ => none
  | _ => none

/-- Matcher for `<@([A-Z0-9]+)>`. -/
def matchUser : List Char → Option (List Char)
  | '<' :: '@' :: rest =>
    if rest.takeWhile isIdCh = [] then none
    else
      match rest.dropWhile isIdCh with
      | '>' :: r => some r
      | _ => none
  | _ => none

/-- Matcher for `<#[A-Z0-9]+\|([^>]+)>`; returns the captured channel name
and the remainder. -/
def matchChannel : List Char → Option (List Char × List Char)
  | '<' :: '#' :: rest =>
    if rest.takeWhile isIdCh = [] then none
    else
      match rest.dropWhile isIdCh with
      | '|' :: r2 =>
        if r2.takeWhile (fun c => !(c = '>')) = [] then none
        else
          match r2.dropWhile (fun c => !(c = '>')) with
          | '>' :: r4 => some (r2.takeWhile (fun c => !(c = '>')), r4)
          | _ => none
      | _ => none
  | _ => none

/-- Matcher for `:[a-z_]+:`. -/
def matchEmoji : List Char → Option (List Char)
  | ':' :: rest =>
    if rest.takeWhile isEmojiCh = [] then none
    else
      match rest.dropWhile isEmojiCh with
      | ':' :: r => some r
      | _ => none
  | _ => none

/-! ### Consumption bounds for the matchers -/

theorem length_dropWhile_lt_of_takeWhile_ne_nil {p : Char → Bool}
    {r : List Char} (h : r.takeWhile p ≠ []) :
    (r.dropWhile p).length < r.length := by
  cases r with
  | nil => simp [List.takeWhile] at h
  | cons a t =>
    by_cases hp : p a
    · simp only [List.dropWhile, hp]
      calc (t.dropWhile p).length ≤ t.length := (List.dropWhile_suffix p).length_le
        _ < (a :: t).length := by simp
    · simp [List.takeWhile, hp] at h

theorem urlTail_length {r rest : List Char} (h : urlTail r = some rest) :
    rest.length < r.length := by
  unfold urlTail at h
  by_cases he : r.takeWhile (fun c => !isWs c) = []
  · simp [he] at h
  · simp only [he, if_false] at h
    cases h
    exact length_dropWhile_lt_of_takeWhile_ne_nil he

theorem matchUrl_length {l rest : List Char} (h : matchUrl l = some rest) :
    rest.length < l.length := by
  unfold matchUrl at h
  split at h
  · rename_i rest0
    split at h
    · rename_i r
      have := urlTail_length h
      simp_all
      omega
    · rename_i r
      have := urlTail_length h
      simp_all
      omega
    · exact absurd h (by simp)
  · exact absurd h (by simp)

theorem matchUser_length {l rest : List Char} (h : matchUser l = some rest) :
    rest.length < l.length := by
  unfold matchUser at h
  split at h
  · rename_i r0
    by_cases he : r0.takeWhile isIdCh = []
    · simp [he] at h
    · simp only [he, if_false] at h
      split at h
      · rename_i r heq
        cases h
        have h1 : (r0.dropWhile isIdCh).length < r0.length :=
          length_dropWhile_lt_of_takeWhile_ne_nil he
        rw [heq] at h1
        simp at h1 ⊢
        omega
      · exact absurd h (by simp)
  · exact absurd h (by simp)

theorem matchChannel_length {l : List Char} {name rest : List Char}
    (h : matchChannel l = some (name, rest)) :
    rest.length < l.length := by
  unfold matchChannel at h
  split at h
  · rename_i r0
    by_cases he : r0.takeWhile isIdCh = []
    · simp [he] at h
    · simp only [he, if_false] at h
      split at h
      · rename_i r2 heq2
        by_cases hn : r2.takeWhile (fun c => !(c = '>')) = []
        · simp [hn] at h
        · simp only [hn, if_false] at h
          split at h
          · rename_i r4 heq4
            cases h
            have h1 : (r0.dropWhile isIdCh).length < r0.length :=
              length_dropWhile_lt_of_takeWhile_ne_nil he
            have h2 : (r2.dropWhile (fun c => !(c = '>'))).length < r2.length :=
              length_dropWhile_lt_of_takeWhile_ne_nil hn
            rw [heq2] at h1
            rw [heq4] at h2
            simp at h1 h2 ⊢
            omega
          · exact absurd h (by simp)
      · exact absurd h (by simp)
  · exact absurd h (by simp)

theorem matchEmoji_length {l rest : List Char} (h : matchEmoji l = some rest) :
    rest.length < l.length := by
  unfold matchEmoji at h
  split at h
  · rename_i r0
    by_cases he : r0.takeWhile isEmojiCh = []
    · simp [he] at h
    · simp only [he, if_false] at h
      split at h
      · rename_i r heq
        cases h
        have h1 : (r0.dropWhile isEmojiCh).length < r0.length :=
          length_dropWhile_lt_of_takeWhile_ne_nil he
        rw [heq] at h1
        simp at h1 ⊢
        omega
      · exact absurd h (by simp)
  · exact absurd h (by simp)

/-! ### The global-replace scanners

`text.replace(re, repl)` with a global regex walks the string left to right,
replacing each leftmost match and resuming after it.  Each scanner takes an
explicit fuel argument so that it is structurally recursive; fuel equal to
the length of the input always suffices because every step consumes at least
one character. -/

/-- Replacement text of the URL pattern. -/
def urlTag : List Char := "[URL]".data

/-- Replacement text of the user-mention pattern. -/
def userTag : List Char := "@user".data

/-- `replace(/https?:\/\/[^\s]+/g, '[URL]')`, fueled. -/
def replUrlF : Nat → List Char → List Char
  | 0, l => l
  | _ + 1, [] => []
  | f + 1, c :: cs =>
    match matchUrl (c :: cs) with
    | some rest => urlTag ++ replUrlF f rest
    | none => c :: replUrlF f cs

/-- `replace(/<@([A-Z0-9]+)>/g, '@user')`, fueled. -/
def replUserF : Nat → List Char → List Char
  | 0, l => l
  | _ + 1, [] => []
  | f + 1, c :: cs =>
    match matchUser (c :: cs) with
    | some rest => userTag ++ replUserF f rest
    | none => c :: replUserF f cs

/-- `replace(/<#[A-Z0-9]+\|([^>]+)>/g, '#$1')`, fueled. -/
def replChannelF : Nat → List Char → List Char
  | 0, l => l
  | _ + 1, [] => []
  | f + 1, c :: cs =>
    match matchChannel (c :: cs) with
    | some (name, rest) => '#' :: name ++ replChannelF f rest
    | none => c :: replChannelF f cs

/-- `replace(/:[a-z_]+:/g, '')`, fueled. -/
def stripEmojiF : Nat → List Char → List Char
  | 0, l => l
  | _ + 1, [] => []
  | f + 1, c :: cs =>
    match matchEmoji (c :: cs) with
    | some rest => stripEmojiF f rest
    | none => c :: stripEmojiF f cs

/-- URL replacement pass. -/
def replUrl (l : List Char) : List Char := replUrlF l.length l

/-- User-mention replacement pass. -/
def replUser (l : List Char) : List Char := replUserF l.length l

/-- Channel-mention replacement pass. -/
def replChannel (l : List Char) : List Char := replChannelF l.length l

/-- Emoji-shortcode removal pass. -/
def stripEmoji (l : List Char) : List Char := stripEmojiF l.length l

theorem replUrlF_fuel :
    ∀ (f : Nat) (l : List Char), l.length ≤ f → replUrlF f l = replUrlF l.length l := by
  intro f
  induction f using Nat.strong_induction_on with
  | _ f ih =>
    intro l h
    cases f with
    | zero =>
      have : l = [] := List.eq_nil_of_length_eq_zero (Nat.le_zero.mp h)
      subst this; rfl
    | succ f =>
      cases l with
      | nil => rfl
      | cons c cs =>
        have hcs : cs.length ≤ f := by simp at h; omega
        simp only [replUrlF, List.length_cons]
        cases hm : matchUrl (c :: cs) with
        | none => dsimp only; rw [ih f (by omega) cs hcs]
        | some rest =>
          have hr : rest.length ≤ cs.length := by
            have := matchUrl_length hm; simp at this; omega
          dsimp only
          rw [ih f (by omega) rest (le_trans hr hcs),
              ih cs.length (by omega) rest hr]

theorem replUserF_fuel :
    ∀ (f : Nat) (l : List Char), l.length ≤ f → replUserF f l = replUserF l.length l := by
  intro f
  induction f using Nat.strong_induction_on with
  | _ f ih =>
    intro l h
    cases f with
    | zero =>
      have : l = [] := List.eq_nil_of_length_eq_zero (Nat.le_zero.mp h)
      subst this; rfl
    | succ f =>
      cases l with
      | nil => rfl
      | cons c cs =>
        have hcs : cs.length ≤ f := by simp at h; omega
        simp only [replUserF, List.length_cons]
        cases hm : matchUser (c :: cs) with
        | none => dsimp only; rw [ih f (by omega) cs hcs]
        | some rest =>
          have hr : rest.length ≤ cs.length := by
            have := matchUser_length hm; simp at this; omega
          dsimp only
          rw [ih f (by omega) rest (le_trans hr hcs),
              ih cs.length (by omega) rest hr]

theorem replChannelF_fuel :
    ∀ (f : Nat) (l : List Char), l.length ≤ f → replChannelF f l = replChannelF l.length l := by
  intro f
  induction f using Nat.strong_induction_on with
  | _ f ih =>
    intro l h
    cases f with
    | zero =>
      have : l = [] := List.eq_nil_of_length_eq_zero (Nat.le_zero.mp h)
      subst this; rfl
    | succ f =>
      cases l with
      | nil => rfl
      | cons c cs =>
        have hcs : cs.length ≤ f := by simp at h; omega
        simp only [replChannelF, List.length_cons]
        cases hm : matchChannel (c :: cs) with
        | none => dsimp only; rw [ih f (by omega) cs hcs]
        | some p =>
          obtain ⟨name, rest⟩ := p
          have hr : rest.length ≤ cs.length := by
            have := matchChannel_length hm; simp at this; omega
          dsimp only
          rw [ih f (by omega) rest (le_trans hr hcs),
              ih cs.length (by omega) rest hr]

theorem stripEmojiF_fuel :
    ∀ (f : Nat) (l : List Char), l.length ≤ f → stripEmojiF f l = stripEmojiF l.length l := by
  intro f
  induction f using Nat.strong_induction_on with
  | _ f ih =>
    intro l h
    cases f with
    | zero =>
      have : l = [] := List.eq_nil_of_length_eq_zero (Nat.le_zero.mp h)
      subst this; rfl
    | succ f =>
      cases l with
      | nil => rfl
      | cons c cs =>
        have hcs : cs.length ≤ f := by simp at h; omega
        simp only [stripEmojiF, List.length_cons]
        cases hm : matchEmoji (c :: cs) with
        | none => dsimp only; rw [ih f (by omega) cs hcs]
        | some rest =>
          have hr : rest.length ≤ cs.length := by
            have := matchEmoji_length hm; simp at this; omega
          dsimp only
          rw [ih f (by omega) rest (le_trans hr hcs),
              ih cs.length (by omega) rest hr]

/-! ### One-step unfolding of the scanners -/

theorem replUrl_nil : replUrl [] = [] := rfl

theorem replUrl_cons_none {c : Char} {cs : List Char}
    (h : matchUrl (c :: cs) = none) : replUrl (c :: cs) = c :: replUrl cs := by
  unfold replUrl
  simp only [List.length_cons, replUrlF, h]

theorem replUrl_cons_some {c : Char} {cs rest : List Char}
    (h : matchUrl (c :: cs) = some rest) :
    replUrl (c :: cs) = urlTag ++ replUrl rest := by
  unfold replUrl
  simp only [List.length_cons, replUrlF, h]
  have hr : rest.length ≤ cs.length := by
    have := matchUrl_length h; simp at this; omega
  rw [replUrlF_fuel cs.length rest hr]

theorem replUser_nil : replUser [] = [] := rfl

theorem replUser_cons_none {c : Char} {cs : List Char}
    (h : matchUser (c :: cs) = none) : replUser (c :: cs) = c :: replUser cs := by
  unfold replUser
  simp only [List.length_cons, replUserF, h]

theorem replUser_cons_some {c : Char} {cs rest : List Char}
    (h : matchUser (c :: cs) = some rest) :
    replUser (c :: cs) = userTag ++ replUser rest := by
  unfold replUser
  simp only [List.length_cons, replUserF, h]
  have hr : rest.length ≤ cs.length := by
    have := matchUser_length h; simp at this; omega
  rw [replUserF_fuel cs.length rest hr]

theorem replChannel_nil : replChannel [] = [] := rfl

theorem replChannel_cons_none {c : Char} {cs : List Char}
    (h : matchChannel (c :: cs) = none) :
    replChannel (c :: cs) = c :: replChannel cs := by
  unfold replChannel
  simp only [List.length_cons, replChannelF, h]

theorem replChannel_cons_some {c : Char} {cs name rest : List Char}
    (h : matchChannel (c :: cs) = some (name, rest)) :
    replChannel (c :: cs) = '#' :: name ++ replChannel rest := by
  unfold replChannel
  simp only [List.length_cons, replChannelF, h]
  have hr : rest.length ≤ cs.length := by
    have := matchChannel_length h; simp at this; omega
  rw [replChannelF_fuel cs.length rest hr]

theorem stripEmoji_nil : stripEmoji [] = [] := rfl

theorem stripEmoji_cons_none {c : Char} {cs : List Char}
    (h : matchEmoji (c :: cs) = none) :
    stripEmoji (c :: cs) = c :: stripEmoji cs := by
  unfold stripEmoji
  simp only [List.length_cons, stripEmojiF, h]

theorem stripEmoji_cons_some {c : Char} {cs rest : List Char}
    (h : matchEmoji (c :: cs) = some rest) :
    stripEmoji (c :: cs) = stripEmoji rest := by
  unfold stripEmoji
  simp only [List.length_cons, stripEmojiF, h]
  have hr : rest.length ≤ cs.length := by
    have := matchEmoji_length h; simp at this; omega
  rw [stripEmojiF_fuel cs.length rest hr]

/-! ### Whitespace collapsing and trimming -/

/-- `replace(/\s+/g, ' ')`: the Boolean argument records whether the
previous character was part of a whitespace run already replaced. -/
def collapseAux : Bool → List Char → List Char
  | _, [] => []
  | prevWs, c :: cs =>
    if isWs c then
      if prevWs then collapseAux true cs
      else ' ' :: collapseAux true cs
    else c :: collapseAux false cs

/-- `replace(/\s+/g, ' ')`. -/
def collapseWs (l : List Char) : List Char := collapseAux false l

/-- Leading half of `String.prototype.trim`. -/
def trimLeft (l : List Char) : List Char := l.dropWhile isWs

/-- Trailing half of `String.prototype.trim`. -/
def trimRight (l : List Char) : List Char := (l.reverse.dropWhile isWs).reverse

/-- `String.prototype.trim`. -/
def jsTrim (l : List Char) : List Char := trimRight (trimLeft l)

/-- The body of `preprocessText`'s `map`: the five replacements in the order
the source applies them (URLs, user mentions, channel mentions, emoji
shortcodes, whitespace collapse + trim). -/
def cleanList (l : List Char) : List Char :=
  let t1 := replUrl l
  let t2 := replUser t1
  let t3 := replChannel t2
  let t4 := stripEmoji t3
  jsTrim (collapseWs t4)

/-- String-level cleaning of a single message text. -/
def preprocessOne (s : String) : String := ⟨cleanList s.data⟩

/-- `preprocessText`: map the cleaning over the messages, then drop results
of length ≤ 5 (`filter(text => text.length > 5)`). -/
def preprocessText (messages : List SlackMessage) : List String :=
  (messages.map (fun msg => preprocessOne msg.text)).filter
    (fun text => text.length > 5)

/-- `normalize` of the specification: `preprocessText` restricted to a single
message, `none` meaning the message was filtered out. -/
def normalize (raw : String) : Option String :=
  let cleaned := preprocessOne raw
  if cleaned.length > 5 then some cleaned else none

/-! ### Character-class helper lemmas -/

theorem char_ne_of_toNat_ne {c d : Char} (h : c.toNat ≠ d.toNat) : c ≠ d :=
  fun he => h (he ▸ rfl)

theorem isIdCh_props {c : Char} (h : isIdCh c = true) :
    c ≠ ':' ∧ c ≠ '<' ∧ c ≠ '>' ∧ c ≠ '@' ∧ c ≠ '#' ∧ c ≠ '|' ∧
    isWs c = false ∧ isEmojiCh c = false ∧ isLowerCh c = false := by
  simp only [isIdCh, Bool.or_eq_true, Bool.and_eq_true, decide_eq_true_eq] at h
  refine ⟨char_ne_of_toNat_ne ?_, char_ne_of_toNat_ne ?_, char_ne_of_toNat_ne ?_,
    char_ne_of_toNat_ne ?_, char_ne_of_toNat_ne ?_, char_ne_of_toNat_ne ?_, ?_, ?_, ?_⟩
  · show c.toNat ≠ 58; omega
  · show c.toNat ≠ 60; omega
  · show c.toNat ≠ 62; omega
  · show c.toNat ≠ 64; omega
  · show c.toNat ≠ 35; omega
  · show c.toNat ≠ 124; omega
  · simp only [isWs, Bool.or_eq_false_iff, decide_eq_false_iff_not]
    omega
  · simp only [isEmojiCh, isLowerCh, Bool.or_eq_false_iff, Bool.and_eq_false_iff,
      decide_eq_false_iff_not]
    constructor
    · omega
    · exact char_ne_of_toNat_ne (show c.toNat ≠ 95 by omega)
  · simp only [isLowerCh, Bool.and_eq_false_iff, decide_eq_false_iff_not]
    omega

theorem isLowerCh_props {c : Char} (h : isLowerCh c = true) :
    c ≠ ':' ∧ c ≠ '<' ∧ c ≠ '>' ∧ c ≠ '@' ∧ c ≠ '#' ∧ c ≠ '|' ∧
    isWs c = false ∧ isIdCh c = false := by
  simp only [isLowerCh, Bool.and_eq_true, decide_eq_true_eq] at h
  refine ⟨char_ne_of_toNat_ne ?_, char_ne_of_toNat_ne ?_, char_ne_of_toNat_ne ?_,
    char_ne_of_toNat_ne ?_, char_ne_of_toNat_ne ?_, char_ne_of_toNat_ne ?_, ?_, ?_⟩
  · show c.toNat ≠ 58; omega
  · show c.toNat ≠ 60; omega
  · show c.toNat ≠ 62; omega
  · show c.toNat ≠ 64; omega
  · show c.toNat ≠ 35; omega
  · show c.toNat ≠ 124; omega
  · simp only [isWs, Bool.or_eq_false_iff, decide_eq_false_iff_not]
    omega
  · simp only [isIdCh, Bool.or_eq_false_iff, Bool.and_eq_false_iff,
      decide_eq_false_iff_not]
    omega

/-! ### takeWhile / dropWhile helpers -/

theorem takeWhile_all {p : Char → Bool} :
    ∀ {l : List Char}, (∀ c ∈ l, p c = true) → l.takeWhile p = l
  | [], _ => rfl
  | c :: cs, h => by
    simp only [List.takeWhile, h c (by simp)]
    exact congrArg (c :: ·) (takeWhile_all fun d hd => h d (by simp [hd]))

theorem dropWhile_all {p : Char → Bool} :
    ∀ {l : List Char}, (∀ c ∈ l, p c = true) → l.dropWhile p = []
  | [], _ => rfl
  | c :: cs, h => by
    simp only [List.dropWhile, h c (by simp)]
    exact dropWhile_all fun d hd => h d (by simp [hd])

theorem takeWhile_append_cons {p : Char → Bool} :
    ∀ (a : List Char) {b : Char} (r : List Char),
      (∀ c ∈ a, p c = true) → p b = false →
      (a ++ b :: r).takeWhile p = a
  | [], b, r, _, hb => by simp [List.takeWhile, hb]
  | x :: a, b, r, h, hb => by
    simp only [List.cons_append, List.takeWhile, h x (by simp)]
    exact congrArg (x :: ·) (takeWhile_append_cons a r (fun c hc => h c (by simp [hc])) hb)

theorem dropWhile_append_cons {p : Char → Bool} :
    ∀ (a : List Char) {b : Char} (r : List Char),
      (∀ c ∈ a, p c = true) → p b = false →
      (a ++ b :: r).dropWhile p = b :: r
  | [], b, r, _, hb => by simp [List.dropWhile, hb]
  | x :: a, b, r, h, hb => by
    simp only [List.cons_append, List.dropWhile, h x (by simp)]
    exact dropWhile_append_cons a r (fun c hc => h c (by simp [hc])) hb

theorem dropWhile_eq_self_of_none {p : Char → Bool} {l : List Char}
    (h : ∀ c ∈ l, p c = false) : l.dropWhile p = l := by
  cases l with
  | nil => rfl
  | cons c cs => simp [List.dropWhile, h c (by simp)]

/-! ### Matcher inversion lemmas -/

theorem matchUrl_some_colon {l r : List Char} (h : matchUrl l = some r) :
    ':' ∈ l := by
  unfold matchUrl at h
  split at h
  · rename_i rest0
    split at h <;> simp_all
  · simp at h

theorem matchUser_shape {l r : List Char} (h : matchUser l = some r) :
    ∃ t, l = '<' :: '@' :: t := by
  unfold matchUser at h
  split at h
  · rename_i rest; exact ⟨rest, rfl⟩
  · simp at h

theorem matchChannel_shape {l : List Char} {p : List Char × List Char}
    (h : matchChannel l = some p) : ∃ t, l = '<' :: '#' :: t := by
  unfold matchChannel at h
  split at h
  · rename_i rest; exact ⟨rest, rfl⟩
  · simp at h

theorem matchEmoji_shape {l r : List Char} (h : matchEmoji l = some r) :
    ∃ t, l = ':' :: t := by
  unfold matchEmoji at h
  split at h
  · rename_i rest; exact ⟨rest, rfl⟩
  · simp at h

/-! ### Scanner fixed-point (no match anywhere) lemmas -/

theorem replUrl_eq_self {l : List Char}
    (h : ∀ s, s <:+ l → matchUrl s = none) : replUrl l = l := by
  induction l with
  | nil => rfl
  | cons c cs ih =>
    rw [replUrl_cons_none (h _ (List.suffix_refl _))]
    exact congrArg (c :: ·) (ih fun s hs => h s (hs.trans (List.suffix_cons c cs)))

theorem replUser_eq_self {l : List Char}
    (h : ∀ s, s <:+ l → matchUser s = none) : replUser l = l := by
  induction l with
  | nil => rfl
  | cons c cs ih =>
    rw [replUser_cons_none (h _ (List.suffix_refl _))]
    exact congrArg (c :: ·) (ih fun s hs => h s (hs.trans (List.suffix_cons c cs)))

theorem replChannel_eq_self {l : List Char}
    (h : ∀ s, s <:+ l → matchChannel s = none) : replChannel l = l := by
  induction l with
  | nil => rfl
  | cons c cs ih =>
    rw [replChannel_cons_none (h _ (List.suffix_refl _))]
    exact congrArg (c :: ·) (ih fun s hs => h s (hs.trans (List.suffix_cons c cs)))

theorem stripEmoji_eq_self {l : List Char}
    (h : ∀ s, s <:+ l → matchEmoji s = none) : stripEmoji l = l := by
  induction l with
  | nil => rfl
  | cons c cs ih =>
    rw [stripEmoji_cons_none (h _ (List.suffix_refl _))]
    exact congrArg (c :: ·) (ih fun s hs => h s (hs.trans (List.suffix_cons c cs)))

theorem replUrl_eq_self_of_no_colon {l : List Char} (h : ':' ∉ l) :
    replUrl l = l :=
  replUrl_eq_self fun s hs => by
    cases hm : matchUrl s with
    | none => rfl
    | some r => exact absurd (hs.subset (matchUrl_some_colon hm)) h

theorem replUser_eq_self_of_no_lt {l : List Char} (h : '<' ∉ l) :
    replUser l = l :=
  replUser_eq_self fun s hs => by
    cases hm : matchUser s with
    | none => rfl
    | some r =>
      obtain ⟨t, rfl⟩ := matchUser_shape hm
      exact absurd (hs.subset (by simp)) h

theorem replChannel_eq_self_of_no_lt {l : List Char} (h : '<' ∉ l) :
    replChannel l = l :=
  replChannel_eq_self fun s hs => by
    cases hm : matchChannel s with
    | none => rfl
    | some p =>
      obtain ⟨t, rfl⟩ := matchChannel_shape hm
      exact absurd (hs.subset (by simp)) h

theorem stripEmoji_eq_self_of_no_colon {l : List Char} (h : ':' ∉ l) :
    stripEmoji l = l :=
  stripEmoji_eq_self fun s hs => by
    cases hm : matchEmoji s with
    | none => rfl
    | some r =>
      obtain ⟨t, rfl⟩ := matchEmoji_shape hm
      exact absurd (hs.subset (by simp)) h

/-! ### Whitespace pass fixed points -/

theorem collapseAux_eq_self {l : List Char} (h : ∀ c ∈ l, isWs c = false) :
    ∀ b, collapseAux b l = l := by
  induction l with
  | nil => intro b; rfl
  | cons c cs ih =>
    intro b
    simp only [collapseAux, h c (by simp)]
    simp only [Bool.false_eq_true, if_false]
    exact congrArg (c :: ·) (ih (fun d hd => h d (by simp [hd])) false)

theorem collapseWs_eq_self {l : List Char} (h : ∀ c ∈ l, isWs c = false) :
    collapseWs l = l := collapseAux_eq_self h false

theorem jsTrim_eq_self {l : List Char} (h : ∀ c ∈ l, isWs c = false) :
    jsTrim l = l := by
  unfold jsTrim trimLeft trimRight
  rw [dropWhile_eq_self_of_none h,
      dropWhile_eq_self_of_none (fun c hc => h c (List.mem_reverse.mp hc)),
      List.reverse_reverse]

/-- If no character of `l` is a colon, a `<`, or whitespace, the whole
cleaning pipeline leaves `l` unchanged. -/
theorem cleanList_eq_self_of_plain {l : List Char}
    (hcolon : ':' ∉ l) (hlt : '<' ∉ l) (hws : ∀ c ∈ l, isWs c = false) :
    cleanList l = l := by
  unfold cleanList
  simp only
  rw [replUrl_eq_self_of_no_colon hcolon, replUser_eq_self_of_no_lt hlt,
      replChannel_eq_self_of_no_lt hlt, stripEmoji_eq_self_of_no_colon hcolon,
      collapseWs_eq_self hws, jsTrim_eq_self hws]

/-! ### More helper lemmas on takeWhile / dropWhile and the matchers -/

theorem dropWhile_nil_all {p : Char → Bool} :
    ∀ {l : List Char}, l.dropWhile p = [] → ∀ c ∈ l, p c = true
  | [], _, c, hc => absurd hc (by simp)
  | x :: xs, h, c, hc => by
    by_cases hp : p x
    · simp only [List.dropWhile, hp] at h
      rcases List.mem_cons.mp hc with rfl | hc'
      · exact hp
      · exact dropWhile_nil_all h c hc'
    · simp [List.dropWhile, hp] at h

theorem dropWhile_head_false {p : Char → Bool} :
    ∀ {l : List Char} {c : Char} {r : List Char},
      l.dropWhile p = c :: r → p c = false
  | [], c, r, h => by simp [List.dropWhile] at h
  | x :: xs, c, r, h => by
    by_cases hp : p x
    · simp only [List.dropWhile, hp] at h
      exact dropWhile_head_false h
    · simp only [List.dropWhile, hp] at h
      cases h
      exact Bool.not_eq_true _ ▸ (by simpa using hp)

theorem takeWhile_append_left {p : Char → Bool} :
    ∀ (a b : List Char), a.dropWhile p ≠ [] →
      (a ++ b).takeWhile p = a.takeWhile p ∧
      (a ++ b).dropWhile p = a.dropWhile p ++ b
  | [], b, h => absurd rfl h
  | x :: xs, b, h => by
    cases hp : p x with
    | true =>
      have h' : xs.dropWhile p ≠ [] := by
        simpa [List.dropWhile_cons, hp] using h
      have ih := takeWhile_append_left xs b h'
      simp only [List.cons_append, List.takeWhile_cons, List.dropWhile_cons,
        hp, if_true, ih.1, ih.2]
      exact ⟨trivial, trivial⟩
    | false =>
      simp only [List.cons_append, List.takeWhile_cons, List.dropWhile_cons,
        hp, Bool.false_eq_true, if_false]
      exact ⟨trivial, trivial⟩

theorem matchUrl_some_slash {l r : List Char} (h : matchUrl l = some r) :
    '/' ∈ l := by
  unfold matchUrl at h
  split at h
  · rename_i rest0
    split at h <;> simp_all
  · simp at h

theorem isEmojiCh_props {c : Char} (h : isEmojiCh c = true) :
    c ≠ '<' ∧ c ≠ '/' := by
  simp only [isEmojiCh, isLowerCh, Bool.or_eq_true, Bool.and_eq_true,
    decide_eq_true_eq] at h
  rcases h with h | rfl
  · exact ⟨char_ne_of_toNat_ne (show c.toNat ≠ 60 by omega),
      char_ne_of_toNat_ne (show c.toNat ≠ 47 by omega)⟩
  · exact ⟨by decide, by decide⟩

theorem replUrl_eq_self_of_no_slash {l : List Char} (h : '/' ∉ l) :
    replUrl l = l :=
  replUrl_eq_self fun s hs => by
    cases hm : matchUrl s with
    | none => rfl
    | some r => exact absurd (hs.subset (matchUrl_some_slash hm)) h

/-! ### Shape invariants of collapsed / trimmed text -/

/-- The head (if any) is not whitespace. -/
def headNotWs : List Char → Bool
  | [] => true
  | c :: _ => !isWs c

/-- No two adjacent whitespace characters. -/
def noDoubleWs : List Char → Bool
  | a :: b :: r => !(isWs a && isWs b) && noDoubleWs (b :: r)
  | _ => true

theorem noDoubleWs_tail {a : Char} {l : List Char}
    (h : noDoubleWs (a :: l) = true) : noDoubleWs l = true := by
  cases l with
  | nil => rfl
  | cons b r => exact (Bool.and_eq_true .. ▸ h).2

theorem noDoubleWs_cons_of_head {c : Char} {l : List Char}
    (hh : headNotWs l = true) (hl : noDoubleWs l = true) :
    noDoubleWs (c :: l) = true := by
  cases l with
  | nil => rfl
  | cons d r =>
    have hd : isWs d = false := by simpa [headNotWs] using hh
    simp [noDoubleWs, hd, hl]

theorem noDoubleWs_cons_of_not_ws {c : Char} {l : List Char}
    (hc : isWs c = false) (hl : noDoubleWs l = true) :
    noDoubleWs (c :: l) = true := by
  cases l with
  | nil => rfl
  | cons d r =>
    simp only [noDoubleWs, Bool.and_eq_true]
    exact ⟨by simp [hc], hl⟩

theorem headNotWs_collapseAux_true :
    ∀ l : List Char, headNotWs (collapseAux true l) = true := by
  intro l
  induction l with
  | nil => rfl
  | cons c cs ih =>
    cases hc : isWs c with
    | true => simpa [collapseAux, hc] using ih
    | false => simp [collapseAux, hc, headNotWs]

theorem noDoubleWs_collapseAux :
    ∀ (l : List Char) (b : Bool), noDoubleWs (collapseAux b l) = true := by
  intro l
  induction l with
  | nil => intro b; rfl
  | cons c cs ih =>
    intro b
    by_cases hc : isWs c
    · cases b with
      | true => simpa [collapseAux, hc] using ih true
      | false =>
        simp only [collapseAux, hc, if_true]
        exact noDoubleWs_cons_of_head (headNotWs_collapseAux_true cs) (ih true)
    · simp only [collapseAux, hc, Bool.false_eq_true, if_false]
      exact noDoubleWs_cons_of_not_ws (by simpa using hc) (ih false)

theorem collapseAux_ws_space :
    ∀ (l : List Char) (b : Bool) (c : Char), c ∈ collapseAux b l →
      isWs c = true → c = ' ' := by
  intro l
  induction l with
  | nil => intro b c hc; simp [collapseAux] at hc
  | cons x xs ih =>
    intro b c hc hw
    by_cases hx : isWs x
    · cases b with
      | true =>
        simp only [collapseAux, hx, if_true] at hc
        exact ih true c hc hw
      | false =>
        simp only [collapseAux, hx, if_true] at hc
        rcases List.mem_cons.mp hc with rfl | hc'
        · rfl
        · exact ih true c hc' hw
    · simp only [collapseAux, hx, Bool.false_eq_true, if_false] at hc
      rcases List.mem_cons.mp hc with rfl | hc'
      · rw [hw] at hx; exact absurd rfl hx
      · exact ih false c hc' hw

/-! Closure of the shape invariants under trimming. -/

theorem noDoubleWs_suffix :
    ∀ {l s : List Char}, s <:+ l → noDoubleWs l = true → noDoubleWs s = true := by
  intro l
  induction l with
  | nil => intro s hs _; rw [List.suffix_nil.mp hs]; rfl
  | cons c cs ih =>
    intro s hs h
    rcases List.suffix_cons_iff.mp hs with rfl | hs'
    · exact h
    · exact ih hs' (noDoubleWs_tail h)

theorem noDoubleWs_isPrefix :
    ∀ (s l : List Char), s <+: l → noDoubleWs l = true → noDoubleWs s = true
  | [], _, _, _ => rfl
  | [_], _, _, _ => rfl
  | a :: b :: s', l, hp, hl => by
    obtain ⟨r, rfl⟩ := hp
    simp only [List.cons_append, noDoubleWs, Bool.and_eq_true] at hl ⊢
    exact ⟨hl.1, noDoubleWs_isPrefix (b :: s') (b :: (s' ++ r)) ⟨r, by simp⟩ hl.2⟩

theorem headNotWs_of_isPrefix {s l : List Char} (hp : s <+: l)
    (h : headNotWs l = true) : headNotWs s = true := by
  cases s with
  | nil => rfl
  | cons c t =>
    obtain ⟨r, rfl⟩ := hp
    simpa [headNotWs] using h

theorem headNotWs_dropWhile (l : List Char) :
    headNotWs (l.dropWhile isWs) = true := by
  induction l with
  | nil => rfl
  | cons c cs ih =>
    cases hc : isWs c with
    | true => simpa [List.dropWhile_cons, hc] using ih
    | false => simp [List.dropWhile_cons, hc, headNotWs]

theorem trimRight_isPrefix (l : List Char) : trimRight l <+: l := by
  have h1 : l.reverse.dropWhile isWs <:+ l.reverse := List.dropWhile_suffix isWs
  have h2 := List.reverse_prefix.mpr h1
  unfold trimRight
  simpa using h2

theorem trimLeft_suffix (l : List Char) : trimLeft l <:+ l :=
  List.dropWhile_suffix isWs

theorem headNotWs_trimLeft (l : List Char) : headNotWs (trimLeft l) = true :=
  headNotWs_dropWhile l

theorem headNotWs_reverse_trimRight (l : List Char) :
    headNotWs (trimRight l).reverse = true := by
  unfold trimRight
  rw [List.reverse_reverse]
  exact headNotWs_dropWhile l.reverse

theorem headNotWs_jsTrim (l : List Char) : headNotWs (jsTrim l) = true :=
  headNotWs_of_isPrefix (trimRight_isPrefix (trimLeft l)) (headNotWs_trimLeft l)

theorem lastNotWs_jsTrim (l : List Char) :
    headNotWs (jsTrim l).reverse = true :=
  headNotWs_reverse_trimRight (trimLeft l)

theorem jsTrim_subset (l : List Char) : ∀ c ∈ jsTrim l, c ∈ l := by
  intro c hc
  exact (trimLeft_suffix l).subset ((trimRight_isPrefix (trimLeft l)).subset hc)

theorem noDoubleWs_jsTrim {l : List Char} (h : noDoubleWs l = true) :
    noDoubleWs (jsTrim l) = true :=
  noDoubleWs_isPrefix _ _ (trimRight_isPrefix (trimLeft l))
    (noDoubleWs_suffix (trimLeft_suffix l) h)

/-! Fixed points of the whitespace pass. -/

theorem dropWhile_eq_self_of_headNotWs {l : List Char}
    (h : headNotWs l = true) : l.dropWhile isWs = l := by
  cases l with
  | nil => rfl
  | cons c cs =>
    simp only [headNotWs, Bool.not_eq_true'] at h
    simp [List.dropWhile, h]

theorem jsTrim_eq_self_of_ends {l : List Char}
    (hh : headNotWs l = true) (hl : headNotWs l.reverse = true) :
    jsTrim l = l := by
  unfold jsTrim trimLeft trimRight
  rw [dropWhile_eq_self_of_headNotWs hh, dropWhile_eq_self_of_headNotWs hl,
    List.reverse_reverse]

theorem jsTrim_idem (l : List Char) : jsTrim (jsTrim l) = jsTrim l :=
  jsTrim_eq_self_of_ends (headNotWs_jsTrim l) (lastNotWs_jsTrim l)

theorem collapseAux_fixed :
    ∀ l : List Char, (∀ c ∈ l, isWs c = true → c = ' ') →
      noDoubleWs l = true →
      collapseAux false l = l ∧
      (headNotWs l = true → collapseAux true l = l) := by
  intro l
  induction l with
  | nil => exact fun _ _ => ⟨rfl, fun _ => rfl⟩
  | cons c cs ih =>
    intro hsp hnd
    have ihcs := ih (fun d hd => hsp d (by simp [hd])) (noDoubleWs_tail hnd)
    constructor
    · by_cases hc : isWs c
      · have hceq : c = ' ' := hsp c (by simp) hc
        subst hceq
        simp only [collapseAux, if_pos hc]
        have hhead : headNotWs cs = true := by
          cases cs with
          | nil => rfl
          | cons d r =>
            simp only [noDoubleWs, Bool.and_eq_true] at hnd
            have h1 := hnd.1
            rw [Bool.not_eq_true', Bool.and_eq_false_iff] at h1
            have hd : isWs d = false := by
              rcases h1 with h | h
              · exact absurd h (by decide)
              · exact h
            simp [headNotWs, hd]
        rw [ihcs.2 hhead]
        simp
      · simp only [collapseAux, hc, Bool.false_eq_true, if_false]
        rw [ihcs.1]
    · intro hh
      simp only [headNotWs, Bool.not_eq_true'] at hh
      simp only [collapseAux, hh, Bool.false_eq_true, if_false]
      rw [ihcs.1]

theorem collapseWs_eq_self_of_shape {l : List Char}
    (hsp : ∀ c ∈ l, isWs c = true → c = ' ')
    (hnd : noDoubleWs l = true) : collapseWs l = l :=
  (collapseAux_fixed l hsp hnd).1

/-! ### The external collaborators and the pipeline

`Env` packages every external service the pipeline consults: Slack user
lookup, the OpenAI completion endpoint, message history, wall-clock /
timezone-dependent date rendering, and failure switches for the fetch and
delivery calls.  The pipeline functions below are the source functions with
every `await` of an external call replaced by reading the corresponding
`Env` field. -/

/-- Error thrown by the completion client: `error.code` / `error.message`. -/
structure ApiError where
  code : String
  message : String
deriving DecidableEq

/-- The external world, as seen by one pipeline invocation. -/
structure Env where
  /-- `users.info`: resolved display name (`real_name || name`), `none` when
  the call fails or no name is present. -/
  lookup : String → Option String
  /-- Result of `openai.chat.completions.create`: the message content
  (possibly absent) or a thrown error. -/
  completion : Except ApiError (Option String)
  /-- `parseFloat` on a message `ts` field (timestamps are rationals here;
  the embedding is consulted only on simple decimal strings). -/
  parseTs : String → Rat
  /-- `new Date(ms).toDateString()` in the server's timezone. -/
  dateStringOfMs : Rat → String
  /-- `new Date().toLocaleString()` at render time. -/
  nowLocale : String
  /-- Page returned by `conversations.history` for the requested channel. -/
  history : List SlackMessage
  /-- DM conversations (`conversations.list` with their histories). -/
  dms : List (String × List SlackMessage)
  /-- The message-source fetch throws (caught, yielding an empty result). -/
  fetchFails : Bool
  /-- The delivery post (`chat.postMessage` / `conversations.open`) throws. -/
  sendFails : Bool

/-- `getUserInfo`: `real_name || name || 'Unknown User'`, with the catch
branch also producing `'Unknown User'`. -/
def getUserInfo (env : Env) (userId : String) : String :=
  (env.lookup userId).getD "Unknown User"

/-- `messages.slice(-50)`: the last `n` elements (all of them if fewer). -/
def sliceLast (n : Nat) (l : List SlackMessage) : List SlackMessage :=
  l.drop (l.length - n)

/-- The `for`-loop body of `formatMessagesForAI`: resolve the user name,
clean the text, and push `"name: text"` when the cleaned text is truthy
(`preprocessText([msg])[0]` is `undefined` exactly when the message was
filtered out). -/
def formatLoop (env : Env) : List SlackMessage → List String
  | [] => []
  | msg :: rest =>
    let userName := getUserInfo env msg.user
    match (preprocessText [msg]).head? with
    | some cleanText => (userName ++ ": " ++ cleanText) :: formatLoop env rest
    | none => formatLoop env rest

/-- `formatMessagesForAI`: loop over the last 50 messages and join the
surviving lines with newlines. -/
def formatMessagesForAI (env : Env) (messages : List SlackMessage) : String :=
  String.intercalate "\n" (formatLoop env (sliceLast 50 messages))

/-- Fixed quota-exceeded user message (the leading characters are the exact
code points stored in the source file). -/
def quotaExceededMsg : String :=
  "‚ùå OpenAI API quota exceeded. Please check your billing settings."

/-- Fixed invalid-credentials user message. -/
def invalidKeyMsg : String :=
  "‚ùå Invalid OpenAI API key. Please check your configuration."

/-- Prefix of the generic completion-failure message. -/
def aiErrorPrefix : String := "‚ùå Error generating AI summary: "

/-- The user prompt template of `generateOpenAISummary`. -/
def summaryPrompt (conversationType formattedMessages : String) : String :=
  "Please provide a concise and helpful summary of this Slack " ++
  conversationType ++
  ". Focus on:\n1. Main topics discussed\n2. Key decisions made\n3. Action items or next steps\n4. Important information shared\n\nHere are the messages:\n\n" ++
  formattedMessages ++ "\n\nSummary:"

/-- The system prompt of `generateOpenAISummary`. -/
def summarySystemPrompt : String :=
  "You are a helpful assistant that summarizes Slack conversations. Provide clear, concise summaries that highlight the most important information."

/-- `generateOpenAISummary`.  The second component counts the completion
service invocations performed (the source never retries, so it is 0 or 1).
On success the content is trimmed and replaced by a fallback when falsy;
on failure the error is mapped by `error.code` to one of three fixed
user-facing strings. -/
def generateOpenAISummary (env : Env) (messages : List SlackMessage)
    (conversationType : String) : String × Nat :=
  if messages.length = 0 then ("No messages to summarize.", 0)
  else
    let formattedMessages := formatMessagesForAI env messages
    if formattedMessages.length = 0 then
      ("No meaningful messages found to summarize.", 0)
    else
      match env.completion with
      | .ok content =>
        match content with
        | some c =>
          let t : String := ⟨jsTrim c.data⟩
          (if t.length = 0 then "Unable to generate summary." else t, 1)
        | none => ("Unable to generate summary.", 1)
      | .error e =>
        (if e.code = "insufficient_quota" then quotaExceededMsg
         else if e.code = "invalid_api_key" then invalidKeyMsg
         else aiErrorPrefix ++ e.message, 1)

/-- `Math.min` folded over a nonempty timestamp list. -/
def minQ (x : Rat) (l : List Rat) : Rat := l.foldl min x

/-- `Math.max` folded over a nonempty timestamp list. -/
def maxQ (x : Rat) (l : List Rat) : Rat := l.foldl max x

/-- `getTimeRange`: "No messages" on an empty list, otherwise the
`toDateString` of the earliest timestamp, joined with that of the latest by
`" - "` when the two calendar dates differ. -/
def getTimeRange (env : Env) (messages : List SlackMessage) : String :=
  match messages with
  | [] => "No messages"
  | m :: ms =>
    let tsHead := env.parseTs m.ts * 1000
    let tsTail := ms.map (fun msg => env.parseTs msg.ts * 1000)
    let earliest := env.dateStringOfMs (minQ tsHead tsTail)
    let latest := env.dateStringOfMs (maxQ tsHead tsTail)
    if earliest = latest then earliest else earliest ++ " - " ++ latest

/-- `new Set(messages.map(msg => msg.user)).size`. -/
def uniqueUsersCount (messages : List SlackMessage) : Nat :=
  ((messages.map (fun msg => msg.user)).dedup).length

/-- `generatePersonalSummary`: header, activity counts, time range, AI
summary body and generation timestamp (the strings reproduce the exact code
points of the source file). -/
def generatePersonalSummary (env : Env) (messages : List SlackMessage)
    (conversationType : String) : String :=
  let aiSummary := (generateOpenAISummary env messages conversationType).1
  let messageCount := messages.length
  let uniqueUsers := uniqueUsersCount messages
  let timeRange := getTimeRange env messages
  "üì± *Your Personal Chat Summary*\n\n" ++
  "üìä *Activity:* " ++ toString messageCount ++ " messages from " ++
  toString uniqueUsers ++ " user(s)\n" ++
  "‚è∞ *Time Range:* " ++ timeRange ++ "\n\n" ++
  "ü§ñ *AI Summary:*\n" ++ aiSummary ++ "\n\n" ++
  "üìÖ *Generated:* " ++ env.nowLocale

/-- The filter applied to fetched history pages:
`msg.text && !msg.bot_id`. -/
def msgEligible (m : SlackMessage) : Bool :=
  !(m.text == "") && (m.bot_id == none)

/-- `getChannelMessages` (the `days` window is applied by the external API;
the catch branch yields an empty list). -/
def getChannelMessages (env : Env) (days : Nat) : List SlackMessage :=
  if env.fetchFails then [] else env.history.filter msgEligible

/-- `summarizeChannel`. -/
def summarizeChannel (env : Env) (days : Nat) : String :=
  let messages := getChannelMessages env days
  if messages.length = 0 then "No messages found in the specified time period."
  else generatePersonalSummary env messages "channel discussion"

/-- `getAllMyDMs`: each listed DM conversation with its filtered history,
kept only when nonempty; the catch branch yields an empty collection. -/
def getAllMyDMs (env : Env) (days : Nat) : List (String × List SlackMessage) :=
  if env.fetchFails then []
  else (env.dms.map (fun p => (p.1, p.2.filter msgEligible))).filter
    (fun p => !p.2.isEmpty)

/-- Ascending sort by `parseFloat(ts)` used by `summarizeAllMyDMs`. -/
def sortByTs (env : Env) (l : List SlackMessage) : List SlackMessage :=
  l.mergeSort (fun a b => env.parseTs a.ts ≤ env.parseTs b.ts)

/-- `summarizeAllMyDMs`. -/
def summarizeAllMyDMs (env : Env) (days : Nat) : String :=
  let allDMs := getAllMyDMs env days
  let allMessages := allDMs.foldl (fun acc p => acc ++ p.2) []
  if allMessages.length = 0 then
    "No DM messages found in the specified time period."
  else
    generatePersonalSummary env (sortByTs env allMessages)
      (toString allDMs.length ++ " DM conversations")

/-- `parseInt(text.split(' ')[0]) || 1`, modelled for digit-only tokens
(`0` and unparsable tokens both fall back to 1, as with `|| 1`). -/
def parseDays (text : String) : Nat :=
  match ((text.splitOn " ").headD "").toNat? with
  | some n => if n = 0 then 1 else n
  | none => 1

/-- What one HTTP handler run did: responses sent to the caller, messages
posted into Slack, errors logged, and whether an error escaped the handler. -/
structure HandlerResult where
  acks : List String
  deliveries : List String
  loggedErrors : Nat
  raised : Bool
deriving DecidableEq

/-- The `/slack/my-summary` handler (acknowledge first, then work, with the
trailing `catch` only logging): delivery failures are caught and logged; no
further message is posted. -/
def mySummaryHandler (env : Env) (userId text : String) : HandlerResult :=
  let days := parseDays text
  let ack := "Generating your personal chat summary..."
  let summary := summarizeAllMyDMs env days
  if env.sendFails then
    { acks := [ack], deliveries := [], loggedErrors := 1, raised := false }
  else
    { acks := [ack], deliveries := [summary], loggedErrors := 0, raised := false }

/-! ### Event traces for the deferred-delivery choreography

Each constructor is one observable step of a handler run: the synchronous
acknowledgment sent back to Slack, or one call to an external service. -/

inductive Ev where
  | ack
  | extFetch
  | extLookup
  | extLLM
  | extDeliver
deriving DecidableEq

/-- External-call events (everything except the acknowledgment). -/
def isExternal (e : Ev) : Bool := !(e == Ev.ack)

/-- `formatMessagesForAI` performs one `users.info` lookup per message of
the 50-message window (also for messages later skipped). -/
def traceFormatMessagesForAI (messages : List SlackMessage) : List Ev :=
  (sliceLast 50 messages).map (fun _ => Ev.extLookup)

/-- `generateOpenAISummary`: lookups, then one completion call unless an
early return fires. -/
def traceGenerateOpenAISummary (env : Env) (messages : List SlackMessage) :
    List Ev :=
  if messages.length = 0 then []
  else
    traceFormatMessagesForAI messages ++
    (if (formatMessagesForAI env messages).length = 0 then [] else [Ev.extLLM])

/-- `summarizeChannel`: one history fetch, then the summary pipeline unless
the channel is empty. -/
def traceSummarizeChannel (env : Env) (days : Nat) : List Ev :=
  Ev.extFetch ::
    (if (getChannelMessages env days).length = 0 then []
     else traceGenerateOpenAISummary env (getChannelMessages env days))

/-- The `/slack/summarize` handler of index.ts: respond immediately, then
run the pipeline in a detached task and deliver via the `response_url`
callback when present, else by a direct channel post (either way one
delivery call). -/
def traceSlackSummarizeDeferred (env : Env) (responseUrlPresent : Bool)
    (days : Nat) : List Ev :=
  Ev.ack :: (traceSummarizeChannel env days ++ [Ev.extDeliver])

/-- The `/slack/summarize` handler of the wait-for-completion variant
(part_001): do all the work and the delivery first, respond last. -/
def traceSlackSummarizeAwaited (env : Env) (days : Nat) : List Ev :=
  traceSummarizeChannel env days ++ [Ev.extDeliver] ++ [Ev.ack]

/-- No external event precedes the first acknowledgment. -/
def ackBeforeExternals (t : List Ev) : Bool :=
  (t.takeWhile (fun e => !(e == Ev.ack))).all (fun e => !(isExternal e))

/-- The acknowledgment happens exactly once, and before every external
call. -/
def ackExactlyOnceFirst (t : List Ev) : Bool :=
  (t.count Ev.ack == 1) && ackBeforeExternals t

/-! ### Pipeline-level helper lemmas -/

theorem string_length_zero_iff (s : String) : s.length = 0 ↔ s = "" := by
  constructor
  · intro h
    cases s with
    | mk data =>
      simp only [String.length, List.length_eq_zero] at h
      subst h
      rfl
  · intro h; subst h; rfl

theorem preprocessText_singleton (msg : SlackMessage) :
    preprocessText [msg] = (normalize msg.text).toList := by
  by_cases h : (preprocessOne msg.text).length > 5 <;>
    simp [preprocessText, normalize, List.filter_cons, h]

theorem formatLoop_eq_filterMap (env : Env) :
    ∀ l : List SlackMessage,
      formatLoop env l = l.filterMap
        (fun msg => (normalize msg.text).map
          (fun cleanText => getUserInfo env msg.user ++ ": " ++ cleanText))
  | [] => rfl
  | msg :: rest => by
    simp only [formatLoop, preprocessText_singleton, List.filterMap_cons]
    cases hn : normalize msg.text with
    | none => simpa [hn] using formatLoop_eq_filterMap env rest
    | some c => simpa [hn] using formatLoop_eq_filterMap env rest

theorem minQ_mem : ∀ (l : List Rat) (x : Rat), minQ x l = x ∨ minQ x l ∈ l
  | [], _ => Or.inl rfl
  | a :: t, x => by
    have hm : minQ x (a :: t) = minQ (min x a) t := rfl
    rcases minQ_mem t (min x a) with h | h
    · rcases min_choice x a with hc | hc
      · left; rw [hm, h, hc]
      · right; rw [hm, h, hc]; simp
    · right; rw [hm]; simp [h]

theorem minQ_le : ∀ (l : List Rat) (x : Rat), minQ x l ≤ x ∧ ∀ y ∈ l, minQ x l ≤ y
  | [], x => ⟨le_refl x, by simp⟩
  | a :: t, x => by
    have h := minQ_le t (min x a)
    have hm : minQ x (a :: t) = minQ (min x a) t := rfl
    constructor
    · rw [hm]; exact le_trans h.1 (min_le_left x a)
    · intro y hy
      rcases List.mem_cons.mp hy with rfl | hy'
      · rw [hm]; exact le_trans h.1 (min_le_right x y)
      · rw [hm]; exact h.2 y hy'

theorem maxQ_mem : ∀ (l : List Rat) (x : Rat), maxQ x l = x ∨ maxQ x l ∈ l
  | [], _ => Or.inl rfl
  | a :: t, x => by
    have hm : maxQ x (a :: t) = maxQ (max x a) t := rfl
    rcases maxQ_mem t (max x a) with h | h
    · rcases max_choice x a with hc | hc
      · left; rw [hm, h, hc]
      · right; rw [hm, h, hc]; simp
    · right; rw [hm]; simp [h]

theorem maxQ_ge : ∀ (l : List Rat) (x : Rat), x ≤ maxQ x l ∧ ∀ y ∈ l, y ≤ maxQ x l
  | [], x => ⟨le_refl x, by simp⟩
  | a :: t, x => by
    have h := maxQ_ge t (max x a)
    have hm : maxQ x (a :: t) = maxQ (max x a) t := rfl
    constructor
    · rw [hm]; exact le_trans (le_max_left x a) h.1
    · intro y hy
      rcases List.mem_cons.mp hy with rfl | hy'
      · rw [hm]; exact le_trans (le_max_right x y) h.1
      · rw [hm]; exact h.2 y hy'

theorem ack_not_mem_traceSummarizeChannel (env : Env) (days : Nat) :
    Ev.ack ∉ traceSummarizeChannel env days := by
  intro h
  unfold traceSummarizeChannel at h
  rcases List.mem_cons.mp h with h1 | h2
  · exact absurd h1 (by decide)
  · by_cases hc : (getChannelMessages env days).length = 0
    · rw [if_pos hc] at h2
      exact absurd h2 (by simp)
    · rw [if_neg hc] at h2
      unfold traceGenerateOpenAISummary at h2
      rw [if_neg hc] at h2
      rcases List.mem_append.mp h2 with h3 | h4
      · unfold traceFormatMessagesForAI at h3
        obtain ⟨m, _, heq⟩ := List.mem_map.mp h3
        exact absurd heq (by decide)
      · by_cases hf :
          (formatMessagesForAI env (getChannelMessages env days)).length = 0
        · rw [if_pos hf] at h4
          exact absurd h4 (by simp)
        · rw [if_neg hf] at h4
          exact absurd (List.mem_singleton.mp h4) (by decide)

/-! ### Concrete demonstration environments and inputs -/

/-- Digit-string parser used by the demonstration environments (kernel
reducible, unlike `String.toNat?`). -/
def natOfDigitsAux (acc : Nat) : List Char → Option Nat
  | [] => some acc
  | c :: cs =>
    if 48 ≤ c.toNat && c.toNat ≤ 57 then
      natOfDigitsAux (acc * 10 + (c.toNat - 48)) cs
    else none

/-- A concrete healthy environment (UTC-like date rendering around the
epoch). -/
def envW : Env where
  lookup := fun u => if u = "U1" then some "Alice" else none
  completion := .ok (some " A summary. ")
  parseTs := fun s => ((natOfDigitsAux 0 s.data).getD 0 : Rat)
  dateStringOfMs := fun ms =>
    if ms < 86400000 then "Thu Jan 01 1970" else "Fri Jan 02 1970"
  nowLocale := "1/2/1970, 12:00:00 PM"
  history := []
  dms := []
  fetchFails := false
  sendFails := false

/-- `envW` with a failing completion call (quota exceeded). -/
def envQuota : Env :=
  { envW with completion := .error ⟨"insufficient_quota", "Quota exceeded"⟩ }

/-- `envW` with a failing history fetch. -/
def envFetchFail : Env := { envW with fetchFails := true }

/-- `envW` with a failing delivery post. -/
def envSendFail : Env := { envW with sendFails := true }

/-- A message whose text survives normalization. -/
def msgLong : SlackMessage := ⟨"hello world", "U1", "0", none⟩

/-- A message whose text is filtered out by normalization. -/
def msgShort : SlackMessage := ⟨"hi", "U1", "0", none⟩

/-- Two messages on two different calendar dates. -/
def msgsC6 : List SlackMessage :=
  [⟨"hello there", "U1", "0", none⟩, ⟨"more text", "U2", "86400", none⟩]

/-- Timestamps (in milliseconds) of a message list, as `getTimeRange`
computes them. -/
def tsList (env : Env) (messages : List SlackMessage) : List Rat :=
  messages.map (fun msg => env.parseTs msg.ts * 1000)

/-! ### The claims -/

/-- Claim C2: `normalize` (preprocessText on a single message) returns
`absent` iff the cleaned string's length is at most 5; a cleaned length of
exactly 5 yields `absent` and exactly 6 is retained. -/
theorem claim_C2 :
    (∀ msg : SlackMessage, preprocessText [msg] = (normalize msg.text).toList) ∧
    ∀ raw : String,
      (normalize raw = none ↔ (preprocessOne raw).length ≤ 5) ∧
      ((preprocessOne raw).length = 5 → normalize raw = none) ∧
      ((preprocessOne raw).length = 6 →
        normalize raw = some (preprocessOne raw)) := by
  refine ⟨preprocessText_singleton, fun raw => ⟨?_, ?_, ?_⟩⟩
  · unfold normalize
    by_cases h : (preprocessOne raw).length > 5 <;> simp [h] <;> omega
  · intro h; unfold normalize; simp [h]
  · intro h; unfold normalize; simp [h]

/-- Witness for C2 at the boundary lengths 5 and 6. -/
theorem claim_C2_witness :
    (preprocessOne "abcde").length = 5 ∧ normalize "abcde" = none ∧
    (preprocessOne "abcdef").length = 6 ∧
    normalize "abcdef" = some (preprocessOne "abcdef") :=
  ⟨by decide, (claim_C2.2 "abcde").2.1 (by decide), by decide,
   (claim_C2.2 "abcdef").2.2 (by decide)⟩

/-- Claim C3: on an empty message list the summarizer returns the literal
"No messages to summarize." with zero completion-service calls, and on a
nonempty list whose transcript is empty it returns
"No meaningful messages found to summarize." with zero calls. -/
theorem claim_C3 :
    ∀ (env : Env) (conversationType : String),
      generateOpenAISummary env [] conversationType =
        ("No messages to summarize.", 0) ∧
      ∀ messages : List SlackMessage, messages ≠ [] →
        formatMessagesForAI env messages = "" →
        generateOpenAISummary env messages conversationType =
          ("No meaningful messages found to summarize.", 0) := by
  intro env t
  constructor
  · rfl
  · intro msgs hne hfmt
    unfold generateOpenAISummary
    rw [if_neg (by simpa [List.length_eq_zero] using hne)]
    simp only []
    rw [hfmt]
    simp

/-- Witness for C3: a nonempty list whose only message is filtered out. -/
theorem claim_C3_witness :
    formatMessagesForAI envW [msgShort] = "" ∧
    generateOpenAISummary envW [msgShort] "conversation" =
      ("No meaningful messages found to summarize.", 0) :=
  ⟨by decide, (claim_C3 envW "conversation").2 [msgShort] (by decide) (by decide)⟩

/-- Claim C4: the transcript is built from at most the last 50 messages
(a suffix, hence relative order is preserved), lookup failures fall back to
"Unknown User" without failing, and messages whose normalization is absent
contribute no line. -/
theorem claim_C4 :
    ∀ (env : Env) (messages : List SlackMessage),
      (sliceLast 50 messages).length ≤ 50 ∧
      (50 ≤ messages.length → (sliceLast 50 messages).length = 50) ∧
      sliceLast 50 messages <:+ messages ∧
      formatMessagesForAI env messages =
        String.intercalate "\n" ((sliceLast 50 messages).filterMap
          (fun msg => (normalize msg.text).map
            (fun cleanText => getUserInfo env msg.user ++ ": " ++ cleanText))) ∧
      (∀ u, env.lookup u = none → getUserInfo env u = "Unknown User") ∧
      ∀ msg : SlackMessage, normalize msg.text = none →
        formatLoop env [msg] = [] := by
  intro env msgs
  refine ⟨?_, ?_, ?_, ?_, ?_, ?_⟩
  · rw [sliceLast, List.length_drop]; omega
  · intro h; rw [sliceLast, List.length_drop]; omega
  · exact List.drop_suffix _ _
  · unfold formatMessagesForAI
    rw [formatLoop_eq_filterMap]
  · intro u hu; simp [getUserInfo, hu]
  · intro m hm; simp [formatLoop, preprocessText_singleton, hm]

/-- Witness for C4: a 51-message list is cut to exactly 50, an unknown user
resolves to "Unknown User", and a filtered message contributes no line. -/
theorem claim_C4_witness :
    (sliceLast 50 (List.replicate 51 msgLong)).length = 50 ∧
    getUserInfo envW "UX" = "Unknown User" ∧
    formatLoop envW [msgShort] = [] :=
  ⟨(claim_C4 envW (List.replicate 51 msgLong)).2.1 (by decide),
   (claim_C4 envW []).2.2.2.2.1 "UX" (by decide),
   (claim_C4 envW []).2.2.2.2.2 msgShort (by decide)⟩

/-- Claim C5: a failed completion call is mapped, with no retry (exactly one
attempt) and without throwing, to one of exactly three fixed user-safe
strings chosen by the provider error code; `insufficient_quota` yields the
fixed quota message. -/
theorem claim_C5 :
    ∀ (env : Env) (messages : List SlackMessage) (conversationType : String)
      (e : ApiError),
      env.completion = .error e → messages ≠ [] →
      formatMessagesForAI env messages ≠ "" →
      (generateOpenAISummary env messages conversationType).2 = 1 ∧
      ((generateOpenAISummary env messages conversationType).1 =
          quotaExceededMsg ∨
        (generateOpenAISummary env messages conversationType).1 =
          invalidKeyMsg ∨
        (generateOpenAISummary env messages conversationType).1 =
          aiErrorPrefix ++ e.message) ∧
      (e.code = "insufficient_quota" →
        (generateOpenAISummary env messages conversationType).1 =
          quotaExceededMsg) ∧
      (e.code = "invalid_api_key" →
        (generateOpenAISummary env messages conversationType).1 =
          invalidKeyMsg) ∧
      (e.code ≠ "insufficient_quota" → e.code ≠ "invalid_api_key" →
        (generateOpenAISummary env messages conversationType).1 =
          aiErrorPrefix ++ e.message) := by
  intro env msgs t e hc hne hfmt
  have hgen : generateOpenAISummary env msgs t =
      (if e.code = "insufficient_quota" then quotaExceededMsg
       else if e.code = "invalid_api_key" then invalidKeyMsg
       else aiErrorPrefix ++ e.message, 1) := by
    unfold generateOpenAISummary
    rw [if_neg (by simpa [List.length_eq_zero] using hne)]
    simp only []
    rw [if_neg (fun h => hfmt ((string_length_zero_iff _).mp h)), hc]
  rw [hgen]
  refine ⟨rfl, ?_, ?_, ?_, ?_⟩
  · by_cases h1 : e.code = "insufficient_quota"
    · left; simp [h1]
    · by_cases h2 : e.code = "invalid_api_key"
      · right; left; simp [h1, h2]
      · right; right; simp [h1, h2]
  · intro h; simp [h]
  · intro h; simp [h]
  · intro h1 h2; simp [h1, h2]

/-- Witness for C5: a quota-exceeded failure yields exactly the fixed quota
message as the summary, with a single service attempt. -/
theorem claim_C5_witness :
    generateOpenAISummary envQuota [msgLong] "conversation" =
      (quotaExceededMsg, 1) := by
  have h := claim_C5 envQuota [msgLong] "conversation"
    ⟨"insufficient_quota", "Quota exceeded"⟩ rfl (by decide) (by decide)
  have h1 := h.1
  have h2 := h.2.2.1 rfl
  rw [← h1, ← h2]

/-- Claim C7 counterexample: in the wait-for-completion variant of the
`/slack/summarize` handler (part_001), the synchronous response is sent only
after the fetch and delivery calls, so the acknowledgment is not returned
before the pipeline's external calls. -/
theorem claim_C7_cx :
    traceSlackSummarizeAwaited envFetchFail 1 =
      [Ev.extFetch, Ev.extDeliver, Ev.ack] ∧
    ackExactlyOnceFirst (traceSlackSummarizeAwaited envFetchFail 1) = false := by
  constructor
  · decide
  · decide

/-- Claim C7 (amended to the deferred handler of index.ts): the
acknowledgment is returned exactly once and before any external fetch/LLM
call of the detached pipeline. -/
theorem claim_C7 :
    ∀ (env : Env) (responseUrlPresent : Bool) (days : Nat),
      ackExactlyOnceFirst
        (traceSlackSummarizeDeferred env responseUrlPresent days) = true := by
  intro env b days
  unfold ackExactlyOnceFirst ackBeforeExternals traceSlackSummarizeDeferred
  have hnm : Ev.ack ∉ traceSummarizeChannel env days ++ [Ev.extDeliver] := by
    intro h
    rcases List.mem_append.mp h with h1 | h2
    · exact ack_not_mem_traceSummarizeChannel env days h1
    · exact absurd (List.mem_singleton.mp h2) (by decide)
  rw [Bool.and_eq_true]
  constructor
  · simp [List.count_cons, List.count_eq_zero.mpr hnm]
  · simp [List.takeWhile_cons]

/-- Claim C8 counterexample: when the delivery post fails after the
acknowledgment, the handler swallows and logs the error but posts no failure
notice to the delivery target (`deliveries = []`). -/
theorem claim_C8_cx :
    (mySummaryHandler envSendFail "U1" "1").raised = false ∧
    (mySummaryHandler envSendFail "U1" "1").loggedErrors = 1 ∧
    (mySummaryHandler envSendFail "U1" "1").deliveries = [] := by
  refine ⟨rfl, rfl, rfl⟩

/-- Claim C8 (amended): failures after the acknowledgment are swallowed at
the top level (logged, never re-raised), and no secondary failure notice is
posted — a delivery failure is terminal and silent for the end user. -/
theorem claim_C8 :
    ∀ (env : Env) (userId text : String),
      (mySummaryHandler env userId text).raised = false ∧
      (mySummaryHandler env userId text).acks =
        ["Generating your personal chat summary..."] ∧
      (env.sendFails = true →
        (mySummaryHandler env userId text).deliveries = [] ∧
        (mySummaryHandler env userId text).loggedErrors = 1) ∧
      (env.sendFails = false →
        (mySummaryHandler env userId text).deliveries =
          [summarizeAllMyDMs env (parseDays text)] ∧
        (mySummaryHandler env userId text).loggedErrors = 0) := by
  intro env u t
  unfold mySummaryHandler
  by_cases h : env.sendFails <;> simp [h]

/-- Witness for C8 at a failing delivery. -/
theorem claim_C8_witness :
    (mySummaryHandler envSendFail "U1" "").raised = false ∧
    (mySummaryHandler envSendFail "U1" "").deliveries = [] :=
  ⟨(claim_C8 envSendFail "U1" "").1,
   ((claim_C8 envSendFail "U1" "").2.2.1 rfl).1⟩

/-- Claim C6 counterexample: on two messages spanning two calendar dates the
renderer joins the dates with a plain hyphen-minus `" - "`, not the en dash
`" – "` the claim states. -/
theorem claim_C6_cx :
    getTimeRange envW msgsC6 = "Thu Jan 01 1970 - Fri Jan 02 1970" ∧
    getTimeRange envW msgsC6 ≠ "Thu Jan 01 1970 – Fri Jan 02 1970" := by
  have h0 : envW.parseTs "0" * 1000 = 0 := by
    show (((natOfDigitsAux 0 "0".data).getD 0 : Nat) : Rat) * 1000 = 0
    norm_num [show natOfDigitsAux 0 "0".data = some 0 from rfl]
  have h1 : envW.parseTs "86400" * 1000 = 86400000 := by
    show (((natOfDigitsAux 0 "86400".data).getD 0 : Nat) : Rat) * 1000 = 86400000
    norm_num [show natOfDigitsAux 0 "86400".data = some 86400 from rfl]
  have hmin : minQ (envW.parseTs "0" * 1000) [envW.parseTs "86400" * 1000]
      = 0 := by
    show min (envW.parseTs "0" * 1000) (envW.parseTs "86400" * 1000) = 0
    rw [h0, h1]
    exact min_eq_left (by norm_num)
  have hmax : maxQ (envW.parseTs "0" * 1000) [envW.parseTs "86400" * 1000]
      = 86400000 := by
    show max (envW.parseTs "0" * 1000) (envW.parseTs "86400" * 1000) = 86400000
    rw [h0, h1]
    exact max_eq_right (by norm_num)
  have hd0 : envW.dateStringOfMs 0 = "Thu Jan 01 1970" := by
    show (if (0 : Rat) < 86400000 then "Thu Jan 01 1970"
          else "Fri Jan 02 1970") = "Thu Jan 01 1970"
    rw [if_pos (show (0 : Rat) < 86400000 by norm_num)]
  have hd1 : envW.dateStringOfMs 86400000 = "Fri Jan 02 1970" := by
    show (if (86400000 : Rat) < 86400000 then "Thu Jan 01 1970"
          else "Fri Jan 02 1970") = "Fri Jan 02 1970"
    rw [if_neg (show ¬ (86400000 : Rat) < 86400000 by norm_num)]
  have hrfl : getTimeRange envW msgsC6 =
      (if envW.dateStringOfMs
            (minQ (envW.parseTs "0" * 1000) [envW.parseTs "86400" * 1000]) =
          envW.dateStringOfMs
            (maxQ (envW.parseTs "0" * 1000) [envW.parseTs "86400" * 1000])
       then envW.dateStringOfMs
            (minQ (envW.parseTs "0" * 1000) [envW.parseTs "86400" * 1000])
       else envW.dateStringOfMs
            (minQ (envW.parseTs "0" * 1000) [envW.parseTs "86400" * 1000]) ++
          " - " ++
          envW.dateStringOfMs
            (maxQ (envW.parseTs "0" * 1000) [envW.parseTs "86400" * 1000])) :=
    rfl
  constructor
  · rw [hrfl, hmin, hmax, hd0, hd1, if_neg (by decide)]
    decide
  · rw [hrfl, hmin, hmax, hd0, hd1, if_neg (by decide)]
    decide

/-- Claim C6 (amended: the two dates are joined as "earliest - latest" with
a hyphen-minus): message count is the full list's length, unique users is
the number of distinct author ids, and the time-range label is "No messages"
on an empty list, a single `toDateString` when the extremal timestamps share
a calendar date, and the two date strings joined by `" - "` otherwise. -/
theorem claim_C6 :
    ∀ (env : Env) (messages : List SlackMessage) (conversationType : String),
      uniqueUsersCount messages =
        (messages.map (fun msg => msg.user)).toFinset.card ∧
      getTimeRange env [] = "No messages" ∧
      (messages ≠ [] →
        ∃ e l : Rat, e ∈ tsList env messages ∧ l ∈ tsList env messages ∧
          (∀ x ∈ tsList env messages, e ≤ x ∧ x ≤ l) ∧
          getTimeRange env messages =
            (if env.dateStringOfMs e = env.dateStringOfMs l
             then env.dateStringOfMs e
             else env.dateStringOfMs e ++ " - " ++ env.dateStringOfMs l)) ∧
      generatePersonalSummary env messages conversationType =
        "üì± *Your Personal Chat Summary*\n\n" ++
        "üìä *Activity:* " ++ toString messages.length ++ " messages from " ++
        toString (uniqueUsersCount messages) ++ " user(s)\n" ++
        "‚è∞ *Time Range:* " ++ getTimeRange env messages ++ "\n\n" ++
        "ü§ñ *AI Summary:*\n" ++
        (generateOpenAISummary env messages conversationType).1 ++ "\n\n" ++
        "üìÖ *Generated:* " ++ env.nowLocale := by
  intro env msgs t
  refine ⟨(List.card_toFinset _).symm, rfl, ?_, rfl⟩
  intro hne
  match msgs, hne with
  | m :: ms, _ =>
    have hmem1 : minQ (env.parseTs m.ts * 1000)
        (ms.map fun msg => env.parseTs msg.ts * 1000) ∈
        tsList env (m :: ms) := by
      simp only [tsList, List.map_cons]
      rcases minQ_mem (ms.map fun msg => env.parseTs msg.ts * 1000)
          (env.parseTs m.ts * 1000) with h | h
      · rw [h]; exact List.mem_cons_self _ _
      · exact List.mem_cons_of_mem _ h
    have hmem2 : maxQ (env.parseTs m.ts * 1000)
        (ms.map fun msg => env.parseTs msg.ts * 1000) ∈
        tsList env (m :: ms) := by
      simp only [tsList, List.map_cons]
      rcases maxQ_mem (ms.map fun msg => env.parseTs msg.ts * 1000)
          (env.parseTs m.ts * 1000) with h | h
      · rw [h]; exact List.mem_cons_self _ _
      · exact List.mem_cons_of_mem _ h
    have hbound : ∀ x ∈ tsList env (m :: ms),
        minQ (env.parseTs m.ts * 1000)
          (ms.map fun msg => env.parseTs msg.ts * 1000) ≤ x ∧
        x ≤ maxQ (env.parseTs m.ts * 1000)
          (ms.map fun msg => env.parseTs msg.ts * 1000) := by
      intro y hy
      simp only [tsList, List.map_cons, List.mem_cons] at hy
      rcases hy with rfl | hy'
      · exact ⟨(minQ_le _ _).1, (maxQ_ge _ _).1⟩
      · exact ⟨(minQ_le _ _).2 y hy', (maxQ_ge _ _).2 y hy'⟩
    exact ⟨_, _, hmem1, hmem2, hbound, rfl⟩

/-- Witness for C6 on the two-date message list. -/
theorem claim_C6_witness :
    uniqueUsersCount msgsC6 =
      (msgsC6.map (fun msg => msg.user)).toFinset.card ∧
    ∃ e l : Rat, e ∈ tsList envW msgsC6 ∧ l ∈ tsList envW msgsC6 ∧
      (∀ x ∈ tsList envW msgsC6, e ≤ x ∧ x ≤ l) ∧
      getTimeRange envW msgsC6 =
        (if envW.dateStringOfMs e = envW.dateStringOfMs l
         then envW.dateStringOfMs e
         else envW.dateStringOfMs e ++ " - " ++ envW.dateStringOfMs l) :=
  ⟨(claim_C6 envW msgsC6 "conversations").1,
   (claim_C6 envW msgsC6 "conversations").2.2.1 (by decide)⟩

/-! ### No-match helper lemmas for single tokens -/

theorem matchUser_none_of_no_lt {s : List Char} (h : '<' ∉ s) :
    matchUser s = none := by
  cases hm : matchUser s with
  | none => rfl
  | some r =>
    obtain ⟨t, rfl⟩ := matchUser_shape hm
    exact absurd (by simp) h

theorem matchChannel_none_of_no_lt {s : List Char} (h : '<' ∉ s) :
    matchChannel s = none := by
  cases hm : matchChannel s with
  | none => rfl
  | some p =>
    obtain ⟨t, rfl⟩ := matchChannel_shape hm
    exact absurd (by simp) h

theorem match_gt_head_none (x : Char) (xs : List Char) (hx : x ≠ '>') :
    (match x :: xs with
     | '>' :: r => some r
     | _ => (none : Option (List Char))) = none := by
  split
  · rename_i r heq
    injection heq with h1 h2
    exact absurd h1 hx
  · rfl

/-! ### Cleaning whole tokens of each pattern -/

theorem cleanList_http {rest : List Char} (hne : rest ≠ [])
    (hw : ∀ c ∈ rest, isWs c = false) :
    cleanList ("http://".data ++ rest) = "[URL]".data := by
  have hw' : ∀ c ∈ rest, (!isWs c) = true := by
    intro c hc; simp [hw c hc]
  have hmu : matchUrl ('h' :: 't' :: 't' :: 'p' :: ':' :: '/' :: '/' :: rest) =
      some [] := by
    show urlTail rest = some []
    unfold urlTail
    rw [takeWhile_all hw', dropWhile_all hw', if_neg hne]
  show cleanList ('h' :: 't' :: 't' :: 'p' :: ':' :: '/' :: '/' :: rest) =
    "[URL]".data
  unfold cleanList
  simp only
  rw [replUrl_cons_some hmu]
  decide

theorem cleanList_https {rest : List Char} (hne : rest ≠ [])
    (hw : ∀ c ∈ rest, isWs c = false) :
    cleanList ("https://".data ++ rest) = "[URL]".data := by
  have hw' : ∀ c ∈ rest, (!isWs c) = true := by
    intro c hc; simp [hw c hc]
  have hmu : matchUrl
      ('h' :: 't' :: 't' :: 'p' :: 's' :: ':' :: '/' :: '/' :: rest) =
      some [] := by
    show urlTail rest = some []
    unfold urlTail
    rw [takeWhile_all hw', dropWhile_all hw', if_neg hne]
  show cleanList ('h' :: 't' :: 't' :: 'p' :: 's' :: ':' :: '/' :: '/' :: rest) =
    "[URL]".data
  unfold cleanList
  simp only
  rw [replUrl_cons_some hmu]
  decide

theorem cleanList_userMention {id : List Char} (hne : id ≠ [])
    (hall : ∀ c ∈ id, isIdCh c = true) :
    cleanList ('<' :: '@' :: (id ++ ['>'])) = "@user".data := by
  have hcolon : ':' ∉ ('<' :: '@' :: (id ++ ['>']) : List Char) := by
    intro h
    rcases List.mem_cons.mp h with h | h
    · exact absurd h (by decide)
    rcases List.mem_cons.mp h with h | h
    · exact absurd h (by decide)
    rcases List.mem_append.mp h with h | h
    · exact absurd (hall ':' h) (by decide)
    · exact absurd (List.mem_singleton.mp h) (by decide)
  have hmu : matchUser ('<' :: '@' :: (id ++ ['>'])) = some [] := by
    show (if (id ++ ['>']).takeWhile isIdCh = [] then none
          else match (id ++ ['>']).dropWhile isIdCh with
               | '>' :: r => some r
               | _ => none) = some []
    rw [show (id ++ ['>'] : List Char) = id ++ '>' :: [] from rfl,
        takeWhile_append_cons id [] hall (by decide),
        dropWhile_append_cons id [] hall (by decide), if_neg hne]
    rfl
  unfold cleanList
  simp only
  rw [replUrl_eq_self_of_no_colon hcolon, replUser_cons_some hmu,
      replUser_nil, List.append_nil]
  decide

theorem cleanList_channelMention {id name : List Char} (hnid : id ≠ [])
    (hall : ∀ c ∈ id, isIdCh c = true) (hnname : name ≠ [])
    (hname : ∀ c ∈ name, isLowerCh c = true) :
    cleanList ('<' :: '#' :: (id ++ '|' :: (name ++ ['>']))) = '#' :: name := by
  have hcolon : ':' ∉ ('<' :: '#' :: (id ++ '|' :: (name ++ ['>'])) : List Char) := by
    intro h
    rcases List.mem_cons.mp h with h | h
    · exact absurd h (by decide)
    rcases List.mem_cons.mp h with h | h
    · exact absurd h (by decide)
    rcases List.mem_append.mp h with h | h
    · exact absurd (hall ':' h) (by decide)
    rcases List.mem_cons.mp h with h | h
    · exact absurd h (by decide)
    rcases List.mem_append.mp h with h | h
    · exact absurd ((isLowerCh_props (hname ':' h)).1 rfl) (fun hf => hf)
    · exact absurd (List.mem_singleton.mp h) (by decide)
  have hlt : '<' ∉ (id ++ '|' :: (name ++ ['>']) : List Char) := by
    intro h
    rcases List.mem_append.mp h with h | h
    · exact absurd (hall '<' h) (by decide)
    rcases List.mem_cons.mp h with h | h
    · exact absurd h (by decide)
    rcases List.mem_append.mp h with h | h
    · exact absurd ((isLowerCh_props (hname '<' h)).2.1 rfl) (fun hf => hf)
    · exact absurd (List.mem_singleton.mp h) (by decide)
  have hnamep : ∀ c ∈ name, (!(c = '>') : Bool) = true := by
    intro c hc
    simp [(isLowerCh_props (hname c hc)).2.2.1]
  have hmc : matchChannel ('<' :: '#' :: (id ++ '|' :: (name ++ ['>']))) =
      some (name, []) := by
    show (if (id ++ '|' :: (name ++ ['>'])).takeWhile isIdCh = [] then none
          else match (id ++ '|' :: (name ++ ['>'])).dropWhile isIdCh with
               | '|' :: r2 =>
                 if r2.takeWhile (fun c => !(c = '>')) = [] then none
                 else match r2.dropWhile (fun c => !(c = '>')) with
                      | '>' :: r4 =>
                        some (r2.takeWhile (fun c => !(c = '>')), r4)
                      | _ => none
               | _ => none) = some (name, [])
    rw [takeWhile_append_cons id (name ++ ['>']) hall (by decide),
        dropWhile_append_cons id (name ++ ['>']) hall (by decide), if_neg hnid]
    show (if (name ++ ['>']).takeWhile (fun c => !(c = '>')) = [] then none
          else match (name ++ ['>']).dropWhile (fun c => !(c = '>')) with
               | '>' :: r4 =>
                 some ((name ++ ['>']).takeWhile (fun c => !(c = '>')), r4)
               | _ => none) = some (name, [])
    rw [show (name ++ ['>'] : List Char) = name ++ '>' :: [] from rfl,
        takeWhile_append_cons name [] hnamep (by decide),
        dropWhile_append_cons name [] hnamep (by decide), if_neg hnname]
    rfl
  have hver : replUser ('<' :: '#' :: (id ++ '|' :: (name ++ ['>']))) =
      '<' :: '#' :: (id ++ '|' :: (name ++ ['>'])) := by
    apply replUser_eq_self
    intro s hs
    rcases List.suffix_cons_iff.mp hs with rfl | hs1
    · rfl
    rcases List.suffix_cons_iff.mp hs1 with rfl | hs2
    · rfl
    · exact matchUser_none_of_no_lt (fun hm => hlt (hs2.subset hm))
  have hwsm : ∀ c ∈ ('#' :: name : List Char), isWs c = false := by
    intro c hc
    rcases List.mem_cons.mp hc with rfl | hc'
    · decide
    · exact (isLowerCh_props (hname c hc')).2.2.2.2.2.2.1
  have hcolon2 : ':' ∉ ('#' :: name : List Char) := by
    intro h
    rcases List.mem_cons.mp h with h | h
    · exact absurd h (by decide)
    · exact absurd ((isLowerCh_props (hname ':' h)).1 rfl) (fun hf => hf)
  unfold cleanList
  simp only
  rw [replUrl_eq_self_of_no_colon hcolon, hver, replChannel_cons_some hmc,
      replChannel_nil, List.append_nil,
      stripEmoji_eq_self_of_no_colon hcolon2, collapseWs_eq_self hwsm,
      jsTrim_eq_self hwsm]

theorem cleanList_emojiShortcode {ident : List Char} (hne : ident ≠ [])
    (hall : ∀ c ∈ ident, isEmojiCh c = true) :
    cleanList (':' :: (ident ++ [':'])) = [] := by
  have hslash : '/' ∉ (':' :: (ident ++ [':']) : List Char) := by
    intro h
    rcases List.mem_cons.mp h with h | h
    · exact absurd h (by decide)
    rcases List.mem_append.mp h with h | h
    · exact absurd ((isEmojiCh_props (hall '/' h)).2 rfl) (fun hf => hf)
    · exact absurd (List.mem_singleton.mp h) (by decide)
  have hlt : '<' ∉ (':' :: (ident ++ [':']) : List Char) := by
    intro h
    rcases List.mem_cons.mp h with h | h
    · exact absurd h (by decide)
    rcases List.mem_append.mp h with h | h
    · exact absurd ((isEmojiCh_props (hall '<' h)).1 rfl) (fun hf => hf)
    · exact absurd (List.mem_singleton.mp h) (by decide)
  have hme : matchEmoji (':' :: (ident ++ [':'])) = some [] := by
    show (if (ident ++ [':']).takeWhile isEmojiCh = [] then none
          else match (ident ++ [':']).dropWhile isEmojiCh with
               | ':' :: r => some r
               | _ => none) = some []
    rw [show (ident ++ [':'] : List Char) = ident ++ ':' :: [] from rfl,
        takeWhile_append_cons ident [] hall (by decide),
        dropWhile_append_cons ident [] hall (by decide), if_neg hne]
    rfl
  unfold cleanList
  simp only
  rw [replUrl_eq_self_of_no_slash hslash, replUser_eq_self_of_no_lt hlt,
      replChannel_eq_self_of_no_lt hlt, stripEmoji_cons_some hme,
      stripEmoji_nil]
  rfl

/-- Claim C1: the normalizer applies exactly the five transformations in the
source's fixed order — URL tokens become `[URL]`, `<@ID>` becomes `@user`,
`<#ID|name>` becomes `#name`, `:identifier:` shortcodes vanish while text
emoticons survive, and whitespace is collapsed to single spaces and
trimmed. -/
theorem claim_C1 :
    (∀ raw : List Char, cleanList raw =
       jsTrim (collapseWs (stripEmoji (replChannel (replUser (replUrl raw)))))) ∧
    (∀ rest : List Char, rest ≠ [] → (∀ c ∈ rest, isWs c = false) →
       cleanList ("http://".data ++ rest) = "[URL]".data ∧
       cleanList ("https://".data ++ rest) = "[URL]".data) ∧
    (∀ id : List Char, id ≠ [] → (∀ c ∈ id, isIdCh c = true) →
       cleanList ('<' :: '@' :: (id ++ ['>'])) = "@user".data) ∧
    (∀ id name : List Char, id ≠ [] → (∀ c ∈ id, isIdCh c = true) →
       name ≠ [] → (∀ c ∈ name, isLowerCh c = true) →
       cleanList ('<' :: '#' :: (id ++ '|' :: (name ++ ['>']))) = '#' :: name) ∧
    (∀ ident : List Char, ident ≠ [] → (∀ c ∈ ident, isEmojiCh c = true) →
       cleanList (':' :: (ident ++ [':'])) = []) ∧
    cleanList ":)".data = ":)".data ∧
    (∀ raw : List Char,
       noDoubleWs (cleanList raw) = true ∧
       headNotWs (cleanList raw) = true ∧
       headNotWs (cleanList raw).reverse = true ∧
       ∀ c ∈ cleanList raw, isWs c = true → c = ' ') := by
  refine ⟨fun raw => rfl,
    fun rest hne hw => ⟨cleanList_http hne hw, cleanList_https hne hw⟩,
    fun id hne hall => cleanList_userMention hne hall,
    fun id name h1 h2 h3 h4 => cleanList_channelMention h1 h2 h3 h4,
    fun ident hne hall => cleanList_emojiShortcode hne hall,
    by decide,
    fun raw => ⟨?_, ?_, ?_, ?_⟩⟩
  · exact noDoubleWs_jsTrim
      (noDoubleWs_collapseAux (stripEmoji (replChannel (replUser (replUrl raw)))) false)
  · exact headNotWs_jsTrim
      (collapseWs (stripEmoji (replChannel (replUser (replUrl raw)))))
  · exact lastNotWs_jsTrim
      (collapseWs (stripEmoji (replChannel (replUser (replUrl raw)))))
  · exact fun c hc hw => collapseAux_ws_space
      (stripEmoji (replChannel (replUser (replUrl raw)))) false c
      (jsTrim_subset
        (collapseWs (stripEmoji (replChannel (replUser (replUrl raw))))) c hc) hw

/-- Witness for C1 on concrete tokens of each pattern. -/
theorem claim_C1_witness :
    cleanList ("http://".data ++ "x.com".data) = "[URL]".data ∧
    cleanList ('<' :: '@' :: ("U123".data ++ ['>'])) = "@user".data ∧
    cleanList ('<' :: '#' :: ("C1".data ++ '|' :: ("general".data ++ ['>']))) =
      '#' :: "general".data ∧
    cleanList (':' :: ("smile".data ++ [':'])) = [] :=
  ⟨(claim_C1.2.1 "x.com".data (by decide) (by decide)).1,
   claim_C1.2.2.1 "U123".data (by decide) (by decide),
   claim_C1.2.2.2.1 "C1".data "general".data (by decide) (by decide)
     (by decide) (by decide),
   claim_C1.2.2.2.2.1 "smile".data (by decide) (by decide)⟩

/-- Claim C9 counterexample: re-running the transformations on a cleaned
string can change it — emoji-shortcode removal can leave a fresh colon pair
(`"::aabb:wxyz:"` cleans to `":wxyz:"`, which cleans again to the empty
string), so `normalize` is not idempotent on its own output. -/
theorem claim_C9_cx :
    cleanList "::aabb:wxyz:".data = ":wxyz:".data ∧
    normalize "::aabb:wxyz:" = some ":wxyz:" ∧
    cleanList (cleanList "::aabb:wxyz:".data) = [] ∧
    cleanList (cleanList "::aabb:wxyz:".data) ≠ cleanList "::aabb:wxyz:".data := by
  refine ⟨by decide, by decide, by decide, by decide⟩

/-- Claim C9 (amended): re-running the cleaning on a cleaned string is the
identity provided no replacement pass has a further match on it (colon pairs
can in fact remain, so this proviso is not vacuous — see the
counterexample); the whitespace pass alone is always idempotent on cleaned
output. -/
theorem claim_C9 :
    ∀ raw : List Char,
      (replUrl (cleanList raw) = cleanList raw →
        replUser (cleanList raw) = cleanList raw →
        replChannel (cleanList raw) = cleanList raw →
        stripEmoji (cleanList raw) = cleanList raw →
        cleanList (cleanList raw) = cleanList raw) ∧
      collapseWs (cleanList raw) = cleanList raw ∧
      jsTrim (cleanList raw) = cleanList raw := by
  intro raw
  have hshape : ∀ c ∈ cleanList raw, isWs c = true → c = ' ' := fun c hc hw =>
    collapseAux_ws_space (stripEmoji (replChannel (replUser (replUrl raw))))
      false c
      (jsTrim_subset
        (collapseWs (stripEmoji (replChannel (replUser (replUrl raw))))) c hc) hw
  have hnd : noDoubleWs (cleanList raw) = true :=
    noDoubleWs_jsTrim
      (noDoubleWs_collapseAux (stripEmoji (replChannel (replUser (replUrl raw)))) false)
  have hcol : collapseWs (cleanList raw) = cleanList raw :=
    collapseWs_eq_self_of_shape hshape hnd
  have htrim : jsTrim (cleanList raw) = cleanList raw :=
    jsTrim_idem (collapseWs (stripEmoji (replChannel (replUser (replUrl raw)))))
  refine ⟨?_, hcol, htrim⟩
  intro h1 h2 h3 h4
  have hstep : cleanList (cleanList raw) =
      jsTrim (collapseWs (stripEmoji (replChannel (replUser
        (replUrl (cleanList raw)))))) := rfl
  rw [hstep, h1, h2, h3, h4, hcol, htrim]

/-- Witness for C9 on a cleaned string with no further matches. -/
theorem claim_C9_witness :
    cleanList (cleanList "abcdef".data) = cleanList "abcdef".data :=
  (claim_C9 "abcdef".data).1 (by decide) (by decide) (by decide) (by decide)

/-- Claim C10: the mention patterns only match ids of uppercase letters and
digits, so a mention token whose id contains a lowercase letter passes
through the normalizer unchanged and (when long enough) survives into the
transcript. -/
theorem claim_C10 :
    ∀ id : List Char, id ≠ [] →
      (∀ c ∈ id, isIdCh c = true ∨ isLowerCh c = true) →
      (∃ c ∈ id, isLowerCh c = true) →
      cleanList ('<' :: '@' :: (id ++ ['>'])) = '<' :: '@' :: (id ++ ['>']) ∧
      (2 < id.length →
        normalize (String.mk ('<' :: '@' :: (id ++ ['>']))) =
          some (String.mk ('<' :: '@' :: (id ++ ['>'])))) := by
  intro id hne hcls hlow
  have hcolon : ':' ∉ ('<' :: '@' :: (id ++ ['>']) : List Char) := by
    intro h
    rcases List.mem_cons.mp h with h | h
    · exact absurd h (by decide)
    rcases List.mem_cons.mp h with h | h
    · exact absurd h (by decide)
    rcases List.mem_append.mp h with h | h
    · rcases hcls ':' h with h' | h'
      · exact absurd h' (by decide)
      · exact absurd h' (by decide)
    · exact absurd (List.mem_singleton.mp h) (by decide)
  have hws : ∀ c ∈ ('<' :: '@' :: (id ++ ['>']) : List Char),
      isWs c = false := by
    intro c hc
    rcases List.mem_cons.mp hc with rfl | hc
    · decide
    rcases List.mem_cons.mp hc with rfl | hc
    · decide
    rcases List.mem_append.mp hc with hc | hc
    · rcases hcls c hc with h' | h'
      · exact (isIdCh_props h').2.2.2.2.2.2.1
      · exact (isLowerCh_props h').2.2.2.2.2.2.1
    · rw [List.mem_singleton.mp hc]; decide
  have hlt2 : '<' ∉ (id ++ ['>'] : List Char) := by
    intro h
    rcases List.mem_append.mp h with h | h
    · rcases hcls '<' h with h' | h'
      · exact absurd h' (by decide)
      · exact absurd h' (by decide)
    · exact absurd (List.mem_singleton.mp h) (by decide)
  have hdrop_ne : id.dropWhile isIdCh ≠ [] := by
    intro hdrop
    obtain ⟨c, hc, hl⟩ := hlow
    have hall := dropWhile_nil_all hdrop c hc
    rw [(isLowerCh_props hl).2.2.2.2.2.2.2] at hall
    exact Bool.false_ne_true hall
  obtain ⟨c0, d', hd⟩ : ∃ c0 d', id.dropWhile isIdCh = c0 :: d' := by
    cases hdw : id.dropWhile isIdCh with
    | nil => exact absurd hdw hdrop_ne
    | cons a b => exact ⟨a, b, rfl⟩
  have hc0mem : c0 ∈ id :=
    (List.dropWhile_suffix isIdCh).subset
      (by rw [hd]; exact List.mem_cons_self _ _)
  have hc0id : isIdCh c0 = false := dropWhile_head_false hd
  have hc0low : isLowerCh c0 = true := by
    rcases hcls c0 hc0mem with h | h
    · rw [hc0id] at h; exact absurd h Bool.false_ne_true
    · exact h
  have hc0ne : c0 ≠ '>' := (isLowerCh_props hc0low).2.2.1
  have happ := takeWhile_append_left id ['>'] hdrop_ne
  have hmu : matchUser ('<' :: '@' :: (id ++ ['>'])) = none := by
    show (if (id ++ ['>']).takeWhile isIdCh = [] then none
          else match (id ++ ['>']).dropWhile isIdCh with
               | '>' :: r => some r
               | _ => none) = none
    rw [happ.1, happ.2, hd, List.cons_append]
    by_cases hk : id.takeWhile isIdCh = []
    · rw [if_pos hk]
    · rw [if_neg hk]
      exact match_gt_head_none c0 (d' ++ ['>']) hc0ne
  have huser : replUser ('<' :: '@' :: (id ++ ['>'])) =
      '<' :: '@' :: (id ++ ['>']) := by
    apply replUser_eq_self
    intro s hs
    rcases List.suffix_cons_iff.mp hs with rfl | hs1
    · exact hmu
    rcases List.suffix_cons_iff.mp hs1 with rfl | hs2
    · rfl
    · exact matchUser_none_of_no_lt (fun hm => hlt2 (hs2.subset hm))
  have hchan : replChannel ('<' :: '@' :: (id ++ ['>'])) =
      '<' :: '@' :: (id ++ ['>']) := by
    apply replChannel_eq_self
    intro s hs
    rcases List.suffix_cons_iff.mp hs with rfl | hs1
    · rfl
    rcases List.suffix_cons_iff.mp hs1 with rfl | hs2
    · rfl
    · exact matchChannel_none_of_no_lt (fun hm => hlt2 (hs2.subset hm))
  have hclean : cleanList ('<' :: '@' :: (id ++ ['>'])) =
      '<' :: '@' :: (id ++ ['>']) := by
    unfold cleanList
    simp only
    rw [replUrl_eq_self_of_no_colon hcolon, huser, hchan,
        stripEmoji_eq_self_of_no_colon hcolon, collapseWs_eq_self hws,
        jsTrim_eq_self hws]
  refine ⟨hclean, ?_⟩
  intro hlen
  have hpre : preprocessOne (String.mk ('<' :: '@' :: (id ++ ['>']))) =
      String.mk ('<' :: '@' :: (id ++ ['>'])) := by
    show String.mk (cleanList ('<' :: '@' :: (id ++ ['>']))) = _
    rw [hclean]
  have hlen5 : (String.mk ('<' :: '@' :: (id ++ ['>']))).length > 5 := by
    show ('<' :: '@' :: (id ++ ['>'])).length > 5
    simp [List.length_append]
    omega
  show (if (preprocessOne (String.mk ('<' :: '@' :: (id ++ ['>'])))).length > 5
        then some (preprocessOne (String.mk ('<' :: '@' :: (id ++ ['>']))))
        else none) = some (String.mk ('<' :: '@' :: (id ++ ['>'])))
  rw [hpre, if_pos hlen5]

/-- Witness for C10 at the mention token `<@u123abc>`. -/
theorem claim_C10_witness :
    cleanList "<@u123abc>".data = "<@u123abc>".data ∧
    normalize "<@u123abc>" = some "<@u123abc>" := by
  have h := claim_C10 "u123abc".data (by decide) (by decide) (by decide)
  have hstr : String.mk ('<' :: '@' :: ("u123abc".data ++ ['>'])) =
      "<@u123abc>" := by decide
  constructor
  · exact h.1
  · have h2 := h.2 (by decide)
    rw [hstr] at h2
    exact h2

end Summarizer
